import Mathlib

/-!
Verification of the MediCortex request-orchestration pipeline.

This file is a shallow embedding, in Lean 4, of the pipeline's distinctive
logic: the privacy redaction/restoration pass (`PrivacyManager` in
`orchestrator.py`), the knowledge engine (`knowledge_core/medical_engine.py`),
the routing stage (`node_router` / `route_decision` in `orchestrator.py`),
the knowledge-retrieval stage (`node_retrieve_knowledge`), the agent registry
(`specialized_agents/agents.py`), and the A2A agent protocol with its bounded
reasoning loop (`specialized_agents/base.py`, `protocols.py`,
`diagnosis_agent.py`).

Modelling conventions:
* text is `List Char` (`Text`) in the vault development, `String` elsewhere;
* external collaborators (the entity recognizer, the ArangoDB graph store,
  the language model, the tools) are inputs/parameters of the embedded
  functions, with their response contracts reflected in the types;
* Python dictionaries are insertion-ordered association lists;
* floating-point similarity scores are modelled over `ℚ`, with the cosine
  function itself an opaque parameter (only its comparisons matter here);
* wall-clock timestamp fields and the structured logger are omitted: no
  claim observes them;
* all recursion is structural (fuel-based where needed) so that every
  definition evaluates inside the kernel.
-/

namespace MediCortex

/-- Text as a list of characters. -/
abbrev Text := List Char

/-! ## Decimal rendering of counters

Embeds Python's `f"...{count}..."` decimal formatting of a natural number.
Fuel-based structural recursion (fuel `n` suffices: a number has at most `n`
digits). -/

/-- The character for one decimal digit (`d < 10`). -/
def digitChar : Nat → Char
  | 0 => '0' | 1 => '1' | 2 => '2' | 3 => '3' | 4 => '4'
  | 5 => '5' | 6 => '6' | 7 => '7' | 8 => '8' | _ => '9'

/-- Digits of `n`, most significant first; `[]` for `n = 0`. -/
def natDigitsAux : Nat → Nat → Text
  | 0, _ => []
  | fuel + 1, n =>
    if n = 0 then [] else natDigitsAux fuel (n / 10) ++ [digitChar (n % 10)]

/-- Decimal rendering of a natural number, as Python's `str` / f-string. -/
def natToChars (n : Nat) : Text :=
  if n = 0 then ['0'] else natDigitsAux n n

/-- Numeric value of a digit string (left inverse of `natToChars`). -/
def digitsVal (l : Text) : Nat :=
  l.foldl (fun a c => 10 * a + (c.toNat - 48)) 0

theorem digitChar_toNat (d : Nat) (hd : d < 10) : (digitChar d).toNat = 48 + d := by
  interval_cases d <;> rfl

theorem digitsVal_append_digit (l : Text) (d : Nat) (hd : d < 10) :
    digitsVal (l ++ [digitChar d]) = 10 * digitsVal l + d := by
  simp [digitsVal, List.foldl_append, digitChar_toNat d hd]

theorem digitsVal_natDigitsAux : ∀ fuel n, n ≤ fuel → digitsVal (natDigitsAux fuel n) = n := by
  intro fuel
  induction fuel with
  | zero => intro n hn; interval_cases n; rfl
  | succ f ih =>
    intro n hn
    by_cases h0 : n = 0
    · subst h0; simp [natDigitsAux, digitsVal]
    · have hdiv : n / 10 ≤ f := by
        have h1 : n / 10 < n := Nat.div_lt_self (Nat.pos_of_ne_zero h0) (by norm_num)
        omega
      have := ih (n / 10) hdiv
      rw [natDigitsAux, if_neg h0,
        digitsVal_append_digit _ _ (Nat.mod_lt _ (by norm_num)), this]
      omega

theorem digitsVal_natToChars (n : Nat) : digitsVal (natToChars n) = n := by
  by_cases h0 : n = 0
  · subst h0; rfl
  · rw [natToChars, if_neg h0]; exact digitsVal_natDigitsAux n n le_rfl

theorem natToChars_injective : Function.Injective natToChars := by
  intro m n h
  have := digitsVal_natToChars m
  rw [h, digitsVal_natToChars] at this
  omega

theorem mem_natDigitsAux_isDigit : ∀ fuel n c, c ∈ natDigitsAux fuel n → ∃ d, d < 10 ∧ c = digitChar d := by
  intro fuel
  induction fuel with
  | zero => intro n c hc; simp [natDigitsAux] at hc
  | succ f ih =>
    intro n c hc
    rw [natDigitsAux] at hc
    by_cases h0 : n = 0
    · simp [h0] at hc
    · rw [if_neg h0] at hc
      rcases List.mem_append.mp hc with h | h
      · exact ih _ _ h
      · exact ⟨n % 10, Nat.mod_lt _ (by norm_num), by simpa using h⟩

theorem mem_natToChars_isDigit (n : Nat) (c : Char) (hc : c ∈ natToChars n) :
    ∃ d, d < 10 ∧ c = digitChar d := by
  by_cases h0 : n = 0
  · subst h0; simp [natToChars] at hc; exact ⟨0, by norm_num, hc⟩
  · rw [natToChars, if_neg h0] at hc; exact mem_natDigitsAux_isDigit n n c hc

theorem digitChar_ne_lt (d : Nat) (hd : d < 10) : digitChar d ≠ '<' := by
  interval_cases d <;> decide

theorem digitChar_ne_gt (d : Nat) (hd : d < 10) : digitChar d ≠ '>' := by
  interval_cases d <;> decide

/-! ## Placeholder Vault (`PrivacyManager`, orchestrator.py)

`redact_pii` calls the Presidio analyzer on the input text for the four
entity categories, sorts the reported spans by start offset descending,
and replaces each span` text[start:end]` by a freshly numbered placeholder
`<TYPE_N>` (one counter per entity type, starting at 1), recording
`placeholder -> original value` in an (insertion-ordered) dict.
`restore_privacy` replaces, for each mapping pair in insertion order, all
occurrences of the placeholder by the original value (`str.replace`). -/

/-- One span reported by the entity recognizer (`RecognizerResult`):
entity type, start offset (inclusive), end offset (exclusive). -/
structure Span where
  entity_type : String
  start : Nat
  stop : Nat
deriving DecidableEq, Repr

/-- The fixed entity categories passed to `analyzer.analyze`. -/
def presidioEntities : List String :=
  ["PERSON", "PHONE_NUMBER", "EMAIL_ADDRESS", "DATE_TIME"]

/-- The placeholder token `f"<{entity_type}_{count}>"`. -/
def placeholder (ty : String) (n : Nat) : Text :=
  '<' :: ((ty.data ++ '_' :: natToChars n) ++ ['>'])

/-- Per-type counter state (`type_counts`, a Python dict). -/
abbrev Counts := List (String × Nat)

/-- `type_counts.get(ty, 0)`. -/
def countsGet (c : Counts) (ty : String) : Nat := (c.lookup ty).getD 0

/-- `type_counts[ty] = n` (Python dict write: update in place, or append). -/
def countsSet (c : Counts) (ty : String) (n : Nat) : Counts :=
  if c.any (fun p => p.1 == ty) then
    c.map (fun p => if p.1 == ty then (ty, n) else p)
  else c ++ [(ty, n)]

/-- The redaction mapping (`mapping`, a Python dict `placeholder -> original`). -/
abbrev Mapping := List (Text × Text)

/-- `mapping[k] = v` (Python dict write). -/
def mappingSet (m : Mapping) (k v : Text) : Mapping :=
  if m.any (fun p => p.1 == k) then
    m.map (fun p => if p.1 == k then (k, v) else p)
  else m ++ [(k, v)]

/-- `sorted(results, key=lambda x: x.start, reverse=True)` — descending by
start offset; Python's sort is stable, which `insertionSort` with `≥` on the
key reproduces. -/
def sortSpansDesc (results : List Span) : List Span :=
  List.insertionSort (fun a b => b.start ≤ a.start) results

/-- The body of `redact_pii`'s loop over the sorted recognizer results.
State: (`type_counts`, `mapping`, `redacted_text`); `t0` is the original
`text` (span values are always sliced out of it). -/
def redactLoop (t0 : Text) : List Span → Counts × Mapping × Text → Counts × Mapping × Text
  | [], st => st
  | r :: rest, (counts, mapping, red) =>
    let original_value := (t0.take r.stop).drop r.start
    let count := countsGet counts r.entity_type + 1
    let counts' := countsSet counts r.entity_type count
    let ph := placeholder r.entity_type count
    let mapping' := mappingSet mapping ph original_value
    let red' := red.take r.start ++ ph ++ red.drop r.stop
    redactLoop t0 rest (counts', mapping', red')

/-- `PrivacyManager.redact_pii`, with the recognizer's output (`results`)
supplied as an input (the analyzer is an external collaborator). Empty text
returns `("", {})` without consulting the recognizer. -/
def redact_pii (text : Text) (results : List Span) : Text × Mapping :=
  if text = [] then ([], [])
  else
    let st := redactLoop text (sortSpansDesc results) ([], [], text)
    (st.2.2, st.2.1)

/-- Python `str.replace(p, v)`: replace every (leftmost, non-overlapping)
occurrence of `p` by `v`. Fuel-based; `replaceAll` supplies fuel
`s.length`, which suffices. (For `p = ""`, Python interleaves `v` between
all characters; the vault's placeholders are never empty, and this model
leaves `s` unchanged in that irrelevant case.) -/
def replaceAllAux (p v : Text) : Nat → Text → Text
  | _, [] => []
  | 0, s => s
  | fuel + 1, c :: cs =>
    if p ≠ [] ∧ p.isPrefixOf (c :: cs) then
      v ++ replaceAllAux p v fuel ((c :: cs).drop p.length)
    else
      c :: replaceAllAux p v fuel cs

/-- Python `s.replace(p, v)`. -/
def replaceAll (p v s : Text) : Text := replaceAllAux p v s.length s

/-- `PrivacyManager.restore_privacy`: for every `(placeholder, original)`
pair in insertion order, replace all occurrences of the placeholder. -/
def restore_privacy (text : Text) (mapping : Mapping) : Text :=
  mapping.foldl (fun restored pv => replaceAll pv.1 pv.2 restored) text

/-! ### Shape of placeholder tokens

A placeholder token is an angle-bracketed word whose interior holds neither
`<` nor `>`. This shape is what makes the round trip work: no occurrence of
one token can start strictly inside another token, nor straddle a boundary
between a token and surrounding text. -/

/-- `p` is `<w>` for a bracket-free interior `w`. -/
def Bracketed (p : Text) : Prop :=
  ∃ mid, p = '<' :: (mid ++ ['>']) ∧ '<' ∉ mid ∧ '>' ∉ mid

theorem Bracketed.two_le {p : Text} (h : Bracketed p) : 2 ≤ p.length := by
  obtain ⟨mid, rfl, -, -⟩ := h
  simp

theorem Bracketed.ne_nil {p : Text} (h : Bracketed p) : p ≠ [] := by
  obtain ⟨mid, rfl, -, -⟩ := h
  simp

theorem Bracketed.head_eq {p : Text} (h : Bracketed p) (h0 : 0 < p.length) :
    p[0] = '<' := by
  obtain ⟨mid, rfl, -, -⟩ := h
  rfl

theorem Bracketed.interior_ne_lt {p : Text} (h : Bracketed p) (j : Nat)
    (h1 : 1 ≤ j) (hj : j < p.length) : p[j] ≠ '<' := by
  obtain ⟨mid, rfl, hlt, -⟩ := h
  obtain ⟨k, rfl⟩ : ∃ k, j = k + 1 := ⟨j - 1, by omega⟩
  rw [List.getElem_cons_succ]
  have hk : k < mid.length + 1 := by simpa using hj
  by_cases hkm : k < mid.length
  · rw [List.getElem_append_left hkm]
    intro he
    exact hlt (he ▸ List.getElem_mem _)
  · rw [List.getElem_append_right (by omega)]
    simp

theorem Bracketed.before_last_ne_gt {p : Text} (h : Bracketed p) (j : Nat)
    (hj : j + 1 < p.length) : p[j] ≠ '>' := by
  obtain ⟨mid, rfl, -, hgt⟩ := h
  match j with
  | 0 => simp
  | k + 1 =>
    rw [List.getElem_cons_succ]
    have hkm : k < mid.length := by simpa using hj
    rw [List.getElem_append_left hkm]
    intro he
    exact hgt (he ▸ List.getElem_mem _)

theorem Bracketed.last_eq {p : Text} (h : Bracketed p)
    (hl : p.length - 1 < p.length) : p[p.length - 1] = '>' := by
  obtain ⟨mid, rfl, -, -⟩ := h
  have hlen : ('<' :: (mid ++ ['>'])).length - 1 = mid.length + 1 := by simp
  simp only [hlen, List.getElem_cons_succ]
  rw [List.getElem_append_right (by omega)]
  simp

/-- Two bracketed tokens: if one is a prefix of the other followed by
anything, they are equal. -/
theorem Bracketed.eq_of_prefix {q p : Text} (hq : Bracketed q) (hp : Bracketed p)
    (rest : Text) (h : q <+: (p ++ rest)) : q = p := by
  have hq2 := hq.two_le
  have hp2 := hp.two_le
  by_cases hlen : q.length ≤ p.length
  · have hqp : q <+: p := by
      have ht := List.prefix_iff_eq_take.mp h
      rw [List.take_append_of_le_length hlen] at ht
      rw [ht]
      exact List.take_prefix _ _
    rcases Nat.lt_or_ge q.length p.length with hlt | hge
    · exfalso
      have hidx : q.length - 1 < q.length := by omega
      have he := hqp.getElem hidx
      have h1 := hq.last_eq (by omega)
      have h2 := hp.before_last_ne_gt (q.length - 1) (by omega)
      rw [he] at h1
      exact h2 h1
    · exact hqp.eq_of_length (by omega)
  · exfalso
    push_neg at hlen
    have hidx : p.length - 1 < q.length := by omega
    have he := h.getElem hidx
    rw [List.getElem_append_left (by omega)] at he
    have h1 := hp.last_eq (by omega)
    rw [← he] at h1
    exact hq.before_last_ne_gt (p.length - 1) (by omega) h1

/-! ### Occurrence analysis

`NoPref q l after` says: no occurrence of `q` starts strictly inside `l`
when `l` is followed by `after`. -/

/-- No occurrence of `q` starts inside `l ++ after` at a position of `l`. -/
def NoPref (q l after : Text) : Prop :=
  ∀ i, i < l.length → ¬ q <+: (l.drop i ++ after)

/-- The continuation after a scanned segment: empty, or opening with `<`
(i.e. a placeholder token comes next). -/
def AfterOK (after : Text) : Prop :=
  after = [] ∨ ∃ a, after = '<' :: a

theorem noPref_append {q X Y after : Text} (h1 : NoPref q X (Y ++ after))
    (h2 : NoPref q Y after) : NoPref q (X ++ Y) after := by
  intro i hi h
  by_cases hiX : i < X.length
  · rw [List.drop_append_of_le_length (le_of_lt hiX), List.append_assoc] at h
    exact h1 i hiX h
  · push_neg at hiX
    rw [List.drop_append_eq_append_drop, List.drop_eq_nil_of_le hiX,
      List.nil_append] at h
    have hlen : i - X.length < Y.length := by
      simp only [List.length_append] at hi
      omega
    exact h2 (i - X.length) hlen h

/-- In a plain text segment that contains no occurrence of the bracketed
token `q`, no occurrence of `q` can start — even one reaching into the
following text, which is empty or opens with `<`. -/
theorem noPref_plain {q g after : Text} (hq : Bracketed q)
    (hg : ¬ q <:+: g) (haft : AfterOK after) : NoPref q g after := by
  intro i hi h
  have hq2 := hq.two_le
  by_cases hlen : q.length ≤ g.length - i
  · refine hg ?_
    have ht := List.prefix_iff_eq_take.mp h
    rw [List.take_append_of_le_length (by simp; omega)] at ht
    have : q <+: g.drop i := ht ▸ List.take_prefix _ _
    exact this.isInfix.trans (List.drop_suffix i g).isInfix
  · push_neg at hlen
    have hlen2 : q.length ≤ (g.length - i) + after.length := by
      have := h.length_le
      simp only [List.length_append, List.length_drop] at this
      omega
    have haft_ne : after ≠ [] := by
      intro h0
      subst h0
      simp at hlen2
      omega
    rcases haft with h0 | ⟨a, rfl⟩
    · exact haft_ne h0
    · have hidx : g.length - i < q.length := hlen
      have he := h.getElem hidx
      rw [List.getElem_append_right (by simp)] at he
      simp only [List.length_drop, Nat.sub_self, List.getElem_cons_zero] at he
      exact hq.interior_ne_lt (g.length - i) (by omega) hidx he

/-- No occurrence of the bracketed token `q` starts inside a different
bracketed token `p` (whatever follows `p`). -/
theorem noPref_token {q p : Text} (hq : Bracketed q) (hp : Bracketed p)
    (hne : q ≠ p) (rest : Text) : NoPref q p rest := by
  intro i hi h
  rcases Nat.eq_zero_or_pos i with rfl | hipos
  · rw [List.drop_zero] at h
    exact hne (hq.eq_of_prefix hp rest h)
  · have hq2 := hq.two_le
    have h0 := h.getElem (show 0 < q.length by omega)
    rw [List.getElem_append_left (by simp; omega)] at h0
    rw [List.getElem_drop] at h0
    have hlt := hq.head_eq (by omega)
    rw [hlt] at h0
    exact hp.interior_ne_lt (i + 0) (by omega) (by omega) h0.symm

/-! ### Correctness of `str.replace` on the decomposed text -/

theorem replaceAllAux_of_no_occurrence {p v : Text} :
    ∀ fuel (s : Text), s.length ≤ fuel → ¬ p <:+: s →
      replaceAllAux p v fuel s = s := by
  intro fuel
  induction fuel with
  | zero =>
    intro s hs _
    match s with
    | [] => rfl
  | succ f ih =>
    intro s hs hocc
    match s with
    | [] => rfl
    | c :: cs =>
      rw [replaceAllAux]
      have hpre : ¬ (p ≠ [] ∧ p.isPrefixOf (c :: cs)) := by
        rintro ⟨-, hpre⟩
        exact hocc (List.IsPrefix.isInfix (List.isPrefixOf_iff_prefix.mp hpre))
      rw [if_neg hpre]
      have : ¬ p <:+: cs := fun h => hocc (List.infix_cons h)
      rw [ih cs (by simp only [List.length_cons] at hs; omega) this]

theorem replaceAll_of_no_occurrence {p v s : Text} (h : ¬ p <:+: s) :
    replaceAll p v s = s :=
  replaceAllAux_of_no_occurrence s.length s le_rfl h

theorem replaceAllAux_at {p v : Text} (hp : p ≠ []) :
    ∀ (A : Text) fuel (B : Text), (A ++ p ++ B).length ≤ fuel →
      NoPref p A (p ++ B) → ¬ p <:+: B →
      replaceAllAux p v fuel (A ++ p ++ B) = A ++ v ++ B := by
  intro A
  induction A with
  | nil =>
    intro fuel B hfuel _ hB
    simp only [List.nil_append] at hfuel ⊢
    match p, hp with
    | ph :: pt, _ =>
      match fuel, hfuel with
      | f + 1, hfuel =>
        show replaceAllAux (ph :: pt) v (f + 1) (ph :: (pt ++ B)) = v ++ B
        rw [replaceAllAux, if_pos]
        · have hdrop : (ph :: (pt ++ B)).drop (ph :: pt).length = B := by
            rw [← List.cons_append, List.drop_left]
          rw [hdrop]
          have hfB : B.length ≤ f := by
            simp only [List.length_append, List.length_cons] at hfuel
            omega
          rw [replaceAllAux_of_no_occurrence f B hfB hB]
        · refine ⟨by simp, List.isPrefixOf_iff_prefix.mpr ?_⟩
          rw [← List.cons_append]
          exact List.prefix_append _ _
  | cons c A' ih =>
    intro fuel B hfuel hA hB
    match fuel, hfuel with
    | f + 1, hfuel =>
      show replaceAllAux p v (f + 1) (c :: (A' ++ p ++ B)) = c :: (A' ++ v ++ B)
      rw [replaceAllAux, if_neg]
      · have htail : replaceAllAux p v f (A' ++ p ++ B) = A' ++ v ++ B := by
          refine ih f B ?_ ?_ hB
          · simp only [List.length_append, List.length_cons] at hfuel ⊢
            omega
          · intro i hi h
            have := hA (i + 1) (by simp only [List.length_cons]; omega)
            simp only [List.drop_succ_cons] at this
            exact this h
        rw [htail]
      · rintro ⟨-, hpre⟩
        have h0 := hA 0 (by simp)
        rw [List.drop_zero] at h0
        apply h0
        have := List.isPrefixOf_iff_prefix.mp hpre
        simpa [List.append_assoc] using this

theorem replaceAll_at {p v : Text} (hp : p ≠ []) (A B : Text)
    (hA : NoPref p A (p ++ B)) (hB : ¬ p <:+: B) :
    replaceAll p v (A ++ p ++ B) = A ++ v ++ B :=
  replaceAllAux_at hp A (A ++ p ++ B).length B le_rfl hA hB

/-! ### The redacted text as an interleaving

`F u A` is the text `u` with the (descending-sorted, annotated) spans `A`
replaced by their tokens; `FOK u A` packages the well-formedness that the
sorted recognizer output guarantees. -/

/-- The redacted form of `u` under the annotated span list `A`
(spans in descending start order, each paired with its token). -/
def F : Text → List (Span × Text) → Text
  | u, [] => u
  | u, (s, ph) :: A => F (u.take s.start) A ++ ph ++ u.drop s.stop

/-- Well-formedness of a descending annotated span list over `u`:
each span is non-empty and in bounds, and all later (= further left)
spans end at or before this one's start. -/
def FOK : Text → List (Span × Text) → Prop
  | _, [] => True
  | u, (s, _) :: A =>
    s.start < s.stop ∧ s.stop ≤ u.length ∧
    (∀ x ∈ A, x.1.stop ≤ s.start) ∧ FOK (u.take s.start) A

theorem FOK.start_lt_stop : ∀ {u : Text} {A : List (Span × Text)},
    FOK u A → ∀ x ∈ A, x.1.start < x.1.stop := by
  intro u A
  induction A generalizing u with
  | nil => intro _ x hx; simp at hx
  | cons a A ih =>
    rintro ⟨h1, -, -, h4⟩ x hx
    rcases List.mem_cons.mp hx with rfl | hx
    · exact h1
    · exact ih h4 x hx

theorem FOK_append : ∀ {Y : Text} {A : List (Span × Text)} (Z : Text),
    FOK Y A → FOK (Y ++ Z) A := by
  intro Y A
  induction A generalizing Y with
  | nil => intro _ _; trivial
  | cons a A ih =>
    obtain ⟨s, ph⟩ := a
    rintro Z ⟨h1, h2, h3, h4⟩
    refine ⟨h1, by simp; omega, h3, ?_⟩
    have htake : (Y ++ Z).take s.start = Y.take s.start := by
      exact List.take_append_of_le_length (by omega)
    rw [htake]
    exact h4

theorem F_append : ∀ {Y : Text} {A : List (Span × Text)} (Z : Text),
    (∀ x ∈ A, x.1.stop ≤ Y.length ∧ x.1.start ≤ Y.length) →
    F (Y ++ Z) A = F Y A ++ Z := by
  intro Y A
  induction A generalizing Y with
  | nil => intro Z _; rfl
  | cons a A _ =>
    obtain ⟨s, ph⟩ := a
    intro Z hb
    obtain ⟨hstop, hstart⟩ := hb (s, ph) (List.mem_cons_self _ _)
    show F ((Y ++ Z).take s.start) A ++ ph ++ (Y ++ Z).drop s.stop
        = (F (Y.take s.start) A ++ ph ++ Y.drop s.stop) ++ Z
    rw [List.take_append_of_le_length hstart,
      List.drop_append_of_le_length hstop]
    simp [List.append_assoc]

/-- No occurrence of a bracketed token `q` that is none of `A`'s tokens and
does not occur in `u` can start inside `F u A` (with `after` following). -/
theorem noPref_F {q : Text} (hq : Bracketed q) :
    ∀ (A : List (Span × Text)) (u after : Text),
      FOK u A →
      (∀ x ∈ A, Bracketed x.2) →
      (∀ x ∈ A, x.2 ≠ q) →
      ¬ q <:+: u →
      AfterOK after →
      NoPref q (F u A) after := by
  intro A
  induction A with
  | nil =>
    intro u after _ _ _ hu haft
    exact noPref_plain hq hu haft
  | cons a A ih =>
    obtain ⟨s, ph⟩ := a
    intro u after hFOK hbr hneq hu haft
    obtain ⟨h1, h2, h3, h4⟩ := hFOK
    have hbr_ph : Bracketed ph := hbr (s, ph) (List.mem_cons_self _ _)
    have hne_ph : ph ≠ q := hneq (s, ph) (List.mem_cons_self _ _)
    show NoPref q (F (u.take s.start) A ++ ph ++ u.drop s.stop) after
    rw [List.append_assoc]
    apply noPref_append
    · rw [List.append_assoc]
      refine ih (u.take s.start) (ph ++ (u.drop s.stop ++ after)) h4
        (fun x hx => hbr x (List.mem_cons_of_mem _ hx))
        (fun x hx => hneq x (List.mem_cons_of_mem _ hx))
        ?_ ?_
      · exact fun h => hu (h.trans (List.take_prefix _ _).isInfix)
      · obtain ⟨mid, hmid, -, -⟩ := hbr_ph
        exact Or.inr ⟨mid ++ ['>'] ++ (u.drop s.stop ++ after), by simp [hmid]⟩
    · apply noPref_append
      · exact noPref_token hq hbr_ph (fun h => hne_ph h.symm) _
      · refine noPref_plain hq ?_ haft
        exact fun h => hu (h.trans (List.drop_suffix _ _).isInfix)

/-- The mapping entries produced for an annotated span list over `u`:
token paired with the original substring `u[start:stop]`. -/
def entriesOf (u : Text) (A : List (Span × Text)) : Mapping :=
  A.map (fun x => (x.2, (u.take x.1.stop).drop x.1.start))

theorem entriesOf_take {u : Text} {A : List (Span × Text)} {k : Nat}
    (h : ∀ x ∈ A, x.1.stop ≤ k) : entriesOf (u.take k) A = entriesOf u A := by
  unfold entriesOf
  refine List.map_congr_left (fun x hx => ?_)
  rw [List.take_take, Nat.min_eq_left (h x hx)]

theorem drop_take_append_drop {u : Text} {start stop : Nat}
    (h1 : start < stop) (h2 : stop ≤ u.length) :
    (u.take stop).drop start ++ u.drop stop = u.drop start := by
  conv_rhs => rw [← List.take_append_drop stop u]
  rw [List.drop_append_of_le_length (by simp; omega)]

/-- Core of the round-trip: restoring the mapping entries over the redacted
form `F u A ++ suffix` recovers `u ++ suffix`, provided the tokens are
bracketed, pairwise distinct, and occur nowhere in the underlying text. -/
theorem restore_F :
    ∀ (A : List (Span × Text)) (u suffix : Text),
      FOK u A →
      (∀ x ∈ A, Bracketed x.2) →
      (∀ x ∈ A, ¬ x.2 <:+: (u ++ suffix)) →
      A.Pairwise (fun x y => x.2 ≠ y.2) →
      List.foldl (fun restored pv => replaceAll pv.1 pv.2 restored)
        (F u A ++ suffix) (entriesOf u A) = u ++ suffix := by
  intro A
  induction A with
  | nil => intro u suffix _ _ _ _; rfl
  | cons a A ih =>
    obtain ⟨s, ph⟩ := a
    intro u suffix hFOK hbr hocc hpw
    obtain ⟨h1, h2, h3, h4⟩ := hFOK
    have hbr_ph : Bracketed ph := hbr (s, ph) (List.mem_cons_self _ _)
    have hstart_le : s.start ≤ u.length := by omega
    have hlen_take : (u.take s.start).length = s.start := by simp; omega
    -- the head mapping entry, and the tail entries re-expressed over the prefix
    have hentries : entriesOf u ((s, ph) :: A)
        = (ph, (u.take s.stop).drop s.start) :: entriesOf (u.take s.start) A := by
      rw [entriesOf_take (fun x hx => h3 x hx)]
      rfl
    rw [hentries, List.foldl_cons]
    -- step 1: replace the head token
    have hstep : replaceAll ph ((u.take s.stop).drop s.start)
        (F u ((s, ph) :: A) ++ suffix)
        = F (u.take s.start) A ++ (u.drop s.start ++ suffix) := by
      have hT : F u ((s, ph) :: A) ++ suffix
          = F (u.take s.start) A ++ ph ++ (u.drop s.stop ++ suffix) := by
        show (F (u.take s.start) A ++ ph ++ u.drop s.stop) ++ suffix
            = F (u.take s.start) A ++ ph ++ (u.drop s.stop ++ suffix)
        simp [List.append_assoc]
      rw [hT]
      have hA : NoPref ph (F (u.take s.start) A) (ph ++ (u.drop s.stop ++ suffix)) := by
        refine noPref_F hbr_ph A (u.take s.start) _ h4
          (fun x hx => hbr x (List.mem_cons_of_mem _ hx))
          (fun x hx => (List.rel_of_pairwise_cons hpw hx).symm)
          ?_ ?_
        · intro h
          exact hocc (s, ph) (List.mem_cons_self _ _)
            (h.trans ((List.take_prefix _ _).isInfix.trans
              (List.prefix_append u suffix).isInfix))
        · obtain ⟨mid, hmid, -, -⟩ := hbr_ph
          exact Or.inr ⟨mid ++ ['>'] ++ (u.drop s.stop ++ suffix), by simp [hmid]⟩
      have hB : ¬ ph <:+: (u.drop s.stop ++ suffix) := by
        intro h
        refine hocc (s, ph) (List.mem_cons_self _ _) (h.trans ?_)
        have : u ++ suffix = u.take s.stop ++ (u.drop s.stop ++ suffix) := by
          rw [← List.append_assoc, List.take_append_drop]
        rw [this]
        exact (List.suffix_append _ _).isInfix
      rw [replaceAll_at hbr_ph.ne_nil _ _ hA hB, List.append_assoc,
        ← List.append_assoc ((u.take s.stop).drop s.start),
        drop_take_append_drop h1 h2]
    rw [hstep]
    -- step 2: the induction hypothesis restores the prefix
    have hind := ih (u.take s.start) (u.drop s.start ++ suffix) h4
      (fun x hx => hbr x (List.mem_cons_of_mem _ hx))
      (fun x hx => by
        rw [← List.append_assoc, List.take_append_drop]
        exact hocc x (List.mem_cons_of_mem _ hx))
      (List.Pairwise.of_cons hpw)
    rw [hind, ← List.append_assoc, List.take_append_drop]

/-! ### From the source loop to the decomposed form -/

/-- Each span paired with the placeholder token the loop generates for it,
threading the per-type counters exactly as `redact_pii` does. -/
def annotate : Counts → List Span → List (Span × Text)
  | _, [] => []
  | c, s :: P =>
    let n := countsGet c s.entity_type + 1
    (s, placeholder s.entity_type n) :: annotate (countsSet c s.entity_type n) P

theorem annotate_fst_mem : ∀ (P : List Span) (c : Counts) (x : Span × Text),
    x ∈ annotate c P → x.1 ∈ P := by
  intro P
  induction P with
  | nil => intro c x hx; simp [annotate] at hx
  | cons s P ih =>
    intro c x hx
    rcases List.mem_cons.mp hx with rfl | hx
    · exact List.mem_cons_self _ _
    · exact List.mem_cons_of_mem _ (ih _ x hx)

theorem lookup_cons_kv (k : String) (kv : String × Nat) (l : Counts) :
    List.lookup k (kv :: l) = if k == kv.1 then some kv.2 else List.lookup k l := by
  obtain ⟨a, b⟩ := kv
  cases h : (k == a) <;> simp [List.lookup, h]

theorem lookup_map_update (ty ty' : String) (n : Nat) :
    ∀ c : Counts,
      List.lookup ty' (c.map (fun p => if p.1 == ty then (ty, n) else p))
        = if ty' = ty then (List.lookup ty c).map (fun _ => n)
          else List.lookup ty' c := by
  intro c
  induction c with
  | nil => by_cases h : ty' = ty <;> simp [h]
  | cons q c ih =>
    simp only [List.map_cons]
    by_cases hq : q.1 = ty
    · rw [if_pos (beq_iff_eq.mpr hq), lookup_cons_kv, lookup_cons_kv]
      by_cases h' : ty' = ty
      · subst h'
        rw [if_pos (by simp), if_pos rfl, if_pos (beq_iff_eq.mpr hq.symm)]
        simp
      · rw [if_neg (by simp [h']), if_neg h', lookup_cons_kv,
          if_neg (by simp [show ty' ≠ q.1 from fun h => h' (h.trans hq)])]
        simpa [h'] using ih
    · rw [if_neg (by simp [hq]), lookup_cons_kv]
      by_cases h2 : ty' = q.1
      · have h' : ty' ≠ ty := fun h => hq (h2.symm.trans h)
        rw [if_pos (beq_iff_eq.mpr h2), if_neg h', lookup_cons_kv,
          if_pos (beq_iff_eq.mpr h2)]
      · rw [if_neg (by simp [h2])]
        by_cases h' : ty' = ty
        · subst h'
          rw [if_pos rfl, lookup_cons_kv, if_neg (by simp [h2])]
          simpa using ih
        · rw [if_neg h', lookup_cons_kv, if_neg (by simp [h2])]
          simpa [h'] using ih

theorem lookup_isSome_of_mem (ty : String) :
    ∀ (c : Counts) (p : String × Nat), p ∈ c → p.1 = ty →
      ∃ m, List.lookup ty c = some m := by
  intro c
  induction c with
  | nil => intro p hp _; simp at hp
  | cons q c ihc =>
    intro p hp he
    by_cases hq : ty = q.1
    · exact ⟨q.2, by simp [List.lookup, show (ty == q.1) = true from beq_iff_eq.mpr hq]⟩
    · rcases List.mem_cons.mp hp with rfl | hp'
      · exact absurd he.symm hq
      · obtain ⟨m, hm⟩ := ihc p hp' he
        exact ⟨m, by simp [List.lookup,
          show (ty == q.1) = false from beq_eq_false_iff_ne.mpr hq, hm]⟩

theorem lookup_eq_none_of_not_any (ty : String) :
    ∀ c : Counts, ¬ (c.any (fun p => p.1 == ty) = true) → List.lookup ty c = none := by
  intro c
  induction c with
  | nil => intro _; rfl
  | cons q c ihc =>
    intro hany
    simp only [List.any_cons, Bool.or_eq_true, not_or] at hany
    by_cases hq : ty = q.1
    · exact absurd (beq_iff_eq.mpr hq.symm) hany.1
    · simp only [List.lookup,
        show (ty == q.1) = false from beq_eq_false_iff_ne.mpr hq]
      exact ihc hany.2

theorem lookup_append_right_of_none {k : String} :
    ∀ {l : Counts}, List.lookup k l = none → ∀ l₂ : Counts,
      List.lookup k (l ++ l₂) = List.lookup k l₂ := by
  intro l
  induction l with
  | nil => intro _ l₂; rfl
  | cons q l ih =>
    intro h l₂
    rw [lookup_cons_kv] at h
    by_cases hk : k = q.1
    · rw [if_pos (beq_iff_eq.mpr hk)] at h
      exact absurd h (by simp)
    · rw [if_neg (by simp [hk])] at h
      rw [List.cons_append, lookup_cons_kv, if_neg (by simp [hk])]
      exact ih h l₂

theorem lookup_append_left_of_some {k : String} {m : Nat} :
    ∀ {l : Counts}, List.lookup k l = some m → ∀ l₂ : Counts,
      List.lookup k (l ++ l₂) = some m := by
  intro l
  induction l with
  | nil => intro h; exact absurd h (by simp)
  | cons q l ih =>
    intro h l₂
    rw [lookup_cons_kv] at h
    rw [List.cons_append, lookup_cons_kv]
    by_cases hk : k = q.1
    · rw [if_pos (beq_iff_eq.mpr hk)] at h
      rw [if_pos (beq_iff_eq.mpr hk)]
      exact h
    · rw [if_neg (by simp [hk])] at h
      rw [if_neg (by simp [hk])]
      exact ih h l₂

theorem countsGet_countsSet (c : Counts) (ty ty' : String) (n : Nat) :
    countsGet (countsSet c ty n) ty' = if ty' = ty then n else countsGet c ty' := by
  unfold countsSet countsGet
  by_cases hany : c.any (fun p => p.1 == ty)
  · rw [if_pos hany, lookup_map_update]
    obtain ⟨p, hp, he⟩ := List.any_eq_true.mp hany
    obtain ⟨m, hm⟩ := lookup_isSome_of_mem ty c p hp (by simpa using he)
    by_cases h' : ty' = ty
    · simp [h', hm]
    · simp [h']
  · rw [if_neg hany]
    have hnone : List.lookup ty c = none := lookup_eq_none_of_not_any ty c hany
    by_cases h' : ty' = ty
    · subst h'
      rw [if_pos rfl, lookup_append_right_of_none hnone, lookup_cons_kv,
        if_pos (by simp)]
      rfl
    · rw [if_neg h']
      cases hc : List.lookup ty' c with
      | some m => rw [lookup_append_left_of_some hc]
      | none =>
        rw [lookup_append_right_of_none hc, lookup_cons_kv,
          if_neg (by simp [h'])]
        rfl

theorem countsGet_le_countsSet (c : Counts) (ty ty' : String) {n : Nat}
    (hn : countsGet c ty ≤ n) : countsGet c ty' ≤ countsGet (countsSet c ty n) ty' := by
  rw [countsGet_countsSet]
  by_cases h : ty' = ty
  · subst h; simpa using hn
  · rw [if_neg h]

/-- Every token in `annotate c P` is a placeholder for its span's type with a
counter exceeding the incoming count for that type. -/
theorem annotate_token_gt : ∀ (P : List Span) (c : Counts) (x : Span × Text),
    x ∈ annotate c P →
    ∃ n, x.2 = placeholder x.1.entity_type n ∧ countsGet c x.1.entity_type < n := by
  intro P
  induction P with
  | nil => intro c x hx; simp [annotate] at hx
  | cons s P ih =>
    intro c x hx
    rcases List.mem_cons.mp hx with rfl | hx
    · refine ⟨countsGet c s.entity_type + 1, rfl, ?_⟩
      show countsGet c s.entity_type < countsGet c s.entity_type + 1
      omega
    · obtain ⟨n, he, hn⟩ := ih _ x hx
      refine ⟨n, he, lt_of_le_of_lt ?_ hn⟩
      exact countsGet_le_countsSet c s.entity_type x.1.entity_type (by omega)

/-! ### The generated tokens are bracketed and pairwise distinct -/

theorem bracketed_placeholder {ty : String} (hty : ty ∈ presidioEntities) (n : Nat) :
    Bracketed (placeholder ty n) := by
  refine ⟨ty.data ++ '_' :: natToChars n, rfl, ?_, ?_⟩
  · intro hmem
    rcases List.mem_append.mp hmem with h | h
    · simp only [presidioEntities, List.mem_cons, List.not_mem_nil, or_false] at hty
      rcases hty with rfl | rfl | rfl | rfl <;> revert h <;> decide
    · rcases List.mem_cons.mp h with h | h
      · exact absurd h (by decide)
      · obtain ⟨d, hd, hcd⟩ := mem_natToChars_isDigit n _ h
        exact digitChar_ne_lt d hd hcd.symm
  · intro hmem
    rcases List.mem_append.mp hmem with h | h
    · simp only [presidioEntities, List.mem_cons, List.not_mem_nil, or_false] at hty
      rcases hty with rfl | rfl | rfl | rfl <;> revert h <;> decide
    · rcases List.mem_cons.mp h with h | h
      · exact absurd h (by decide)
      · obtain ⟨d, hd, hcd⟩ := mem_natToChars_isDigit n _ h
        exact digitChar_ne_gt d hd hcd.symm

theorem placeholder_inj_count {ty : String} {m n : Nat}
    (h : placeholder ty m = placeholder ty n) : m = n := by
  unfold placeholder at h
  have h1 := List.tail_eq_of_cons_eq h
  have h2 := List.append_cancel_right h1
  have h3 := List.append_cancel_left h2
  exact natToChars_injective (List.tail_eq_of_cons_eq h3)

theorem placeholder_getElem?_two (ty : String) (n : Nat)
    (h : 2 ≤ ty.data.length) : (placeholder ty n)[2]? = ty.data[1]? := by
  unfold placeholder
  rw [show (2 : Nat) = 1 + 1 from rfl, List.getElem?_cons_succ,
    List.getElem?_append, if_pos (by rw [List.length_append, List.length_cons]; omega),
    List.getElem?_append, if_pos (by omega)]

theorem placeholder_ne_of_type_ne {ty1 ty2 : String} {m n : Nat}
    (h1 : ty1 ∈ presidioEntities) (h2 : ty2 ∈ presidioEntities) (hne : ty1 ≠ ty2) :
    placeholder ty1 m ≠ placeholder ty2 n := by
  intro h
  have hq := congrArg (fun l => l[2]?) h
  simp only at hq
  simp only [presidioEntities, List.mem_cons, List.not_mem_nil, or_false] at h1 h2
  rcases h1 with rfl | rfl | rfl | rfl <;> rcases h2 with rfl | rfl | rfl | rfl <;>
    first
      | exact hne rfl
      | (rw [placeholder_getElem?_two _ m (by decide),
          placeholder_getElem?_two _ n (by decide)] at hq
         exact absurd hq (by decide))

/-- Tokens generated by `annotate` (for recognizer entity types) are pairwise
distinct: within one type the counter strictly increases, and distinct types
yield tokens differing at their second character. -/
theorem annotate_pairwise_ne : ∀ (P : List Span),
    (∀ s ∈ P, s.entity_type ∈ presidioEntities) → ∀ c : Counts,
      (annotate c P).Pairwise (fun x y => x.2 ≠ y.2) := by
  intro P
  induction P with
  | nil => intro _ c; simp [annotate]
  | cons s P ih =>
    intro hty c
    refine List.Pairwise.cons ?_ (ih (fun s' hs' => hty s' (List.mem_cons_of_mem _ hs')) _)
    intro y hy
    obtain ⟨ny, hey, hgt⟩ := annotate_token_gt P _ y hy
    show placeholder s.entity_type (countsGet c s.entity_type + 1) ≠ y.2
    rw [hey]
    by_cases hsame : y.1.entity_type = s.entity_type
    · rw [hsame]
      intro h
      have := placeholder_inj_count h
      rw [hsame, countsGet_countsSet, if_pos rfl] at hgt
      omega
    · exact placeholder_ne_of_type_ne
        (hty s (List.mem_cons_self _ _))
        (hty y.1 (List.mem_cons_of_mem _ (annotate_fst_mem P _ y hy)))
        (fun h => hsame h.symm)

/-! ### The loop computes the decomposed form -/

/-- The redacted-text component of the loop equals `F` over the annotated
spans. -/
theorem redactLoop_red (t0 : Text) : ∀ (P : List Span) (c : Counts) (m : Mapping) (X : Text),
    FOK X (annotate c P) → (redactLoop t0 P (c, m, X)).2.2 = F X (annotate c P) := by
  intro P
  induction P with
  | nil => intro c m X _; rfl
  | cons s P ih =>
    intro c m X hFOK
    obtain ⟨h1, h2, h3, h4⟩ := hFOK
    have hstart_le : s.start ≤ X.length := by omega
    have hlen_take : (X.take s.start).length = s.start := by simp; omega
    show (redactLoop t0 P (_, _,
        X.take s.start ++ placeholder s.entity_type (countsGet c s.entity_type + 1)
          ++ X.drop s.stop)).2.2
      = F (X.take s.start) (annotate (countsSet c s.entity_type
          (countsGet c s.entity_type + 1)) P)
        ++ placeholder s.entity_type (countsGet c s.entity_type + 1) ++ X.drop s.stop
    set c' := countsSet c s.entity_type (countsGet c s.entity_type + 1)
    set ph := placeholder s.entity_type (countsGet c s.entity_type + 1)
    have hfit : ∀ x ∈ annotate c' P,
        x.1.stop ≤ (X.take s.start).length ∧ x.1.start ≤ (X.take s.start).length := by
      intro x hx
      have hstop := h3 x hx
      have hlt := FOK.start_lt_stop h4 x hx
      rw [hlen_take]
      exact ⟨hstop, by omega⟩
    rw [List.append_assoc]
    rw [ih c' _ (X.take s.start ++ (ph ++ X.drop s.stop))
      (FOK_append _ h4)]
    rw [F_append _ hfit, List.append_assoc]

/-- The mapping component of the loop: with fresh, pairwise-distinct tokens,
the Python dict accumulates exactly the annotated entries in processing
order, with each value sliced from the original text. -/
theorem mappingSet_fresh {m : Mapping} {k v : Text}
    (h : ∀ pv ∈ m, pv.1 ≠ k) : mappingSet m k v = m ++ [(k, v)] := by
  unfold mappingSet
  rw [if_neg]
  intro hany
  obtain ⟨p, hp, he⟩ := List.any_eq_true.mp hany
  exact h p hp (by simpa using he)

theorem redactLoop_mapping (t0 : Text) :
    ∀ (P : List Span) (c : Counts) (m : Mapping) (X : Text),
      (∀ x ∈ annotate c P, ∀ pv ∈ m, pv.1 ≠ x.2) →
      (annotate c P).Pairwise (fun x y => x.2 ≠ y.2) →
      (redactLoop t0 P (c, m, X)).2.1
        = m ++ (annotate c P).map (fun x => (x.2, (t0.take x.1.stop).drop x.1.start)) := by
  intro P
  induction P with
  | nil => intro c m X _ _; simp [redactLoop, annotate]
  | cons s P ih =>
    intro c m X hfresh hpw
    set n := countsGet c s.entity_type + 1 with hn
    set c' := countsSet c s.entity_type n
    set ph := placeholder s.entity_type n
    set v := (t0.take s.stop).drop s.start
    have hhead : (s, ph) ∈ annotate c (s :: P) := List.mem_cons_self _ _
    have hset : mappingSet m ph v = m ++ [(ph, v)] :=
      mappingSet_fresh (fun pv hpv => hfresh (s, ph) hhead pv hpv)
    show (redactLoop t0 P (c', mappingSet m ph v, _)).2.1
      = m ++ ((s, ph) :: annotate c' P).map
          (fun x => (x.2, (t0.take x.1.stop).drop x.1.start))
    rw [hset, ih c' (m ++ [(ph, v)]) _ ?_ (List.Pairwise.of_cons hpw)]
    · simp [List.append_assoc]
    · intro x hx pv hpv
      rcases List.mem_append.mp hpv with hpv | hpv
      · exact hfresh x (List.mem_cons_of_mem _ hx) pv hpv
      · rcases List.mem_cons.mp hpv with rfl | hcon
        · exact (List.rel_of_pairwise_cons hpw hx)
        · simp at hcon

/-- Well-formedness of the annotated sorted spans, from the recognizer-side
hypotheses: descending starts, pairwise non-overlap, non-empty, in bounds. -/
theorem FOK_of_sorted : ∀ (P : List Span) (u : Text) (c : Counts),
    List.Sorted (fun a b => b.start ≤ a.start) P →
    P.Pairwise (fun a b => a.stop ≤ b.start ∨ b.stop ≤ a.start) →
    (∀ s ∈ P, s.start < s.stop ∧ s.stop ≤ u.length) →
    FOK u (annotate c P) := by
  intro P
  induction P with
  | nil => intro u c _ _ _; trivial
  | cons s P ih =>
    intro u c hsort hov hb
    obtain ⟨hb1, hb2⟩ := hb s (List.mem_cons_self _ _)
    have htail : ∀ x ∈ annotate (countsSet c s.entity_type
        (countsGet c s.entity_type + 1)) P, x.1.stop ≤ s.start := by
      intro x hx
      have hmem := annotate_fst_mem P _ x hx
      have hst := (List.sorted_cons.mp hsort).1 x.1 hmem
      rcases List.rel_of_pairwise_cons hov hmem with h | h
      · exact absurd (lt_of_lt_of_le hb1 (le_trans h hst)) (lt_irrefl _)
      · exact h
    refine ⟨hb1, hb2, htail, ?_⟩
    refine ih (u.take s.start) _ (List.sorted_cons.mp hsort).2
      (List.Pairwise.of_cons hov) ?_
    intro s' hs'
    obtain ⟨hb1', hb2'⟩ := hb s' (List.mem_cons_of_mem _ hs')
    have hstop' : s'.stop ≤ s.start := by
      have hst := (List.sorted_cons.mp hsort).1 s' hs'
      rcases List.rel_of_pairwise_cons hov hs' with h | h
      · exact absurd (lt_of_lt_of_le hb1 (le_trans h hst)) (lt_irrefl _)
      · exact h
    have : s.start ≤ u.length := by omega
    refine ⟨hb1', ?_⟩
    simp only [List.length_take]
    omega

/-! ### The round-trip law (Claim C1) and numbering order (Claim C10) -/

instance : IsTotal Span (fun a b => b.start ≤ a.start) :=
  ⟨fun a b => le_total b.start a.start⟩

instance : IsTrans Span (fun a b => b.start ≤ a.start) :=
  ⟨fun _ _ _ hab hbc => le_trans hbc hab⟩

/-- C1. Round-trip of the Placeholder Vault: for non-overlapping, in-bounds,
non-empty recognizer spans (over the recognizer's entity categories), if no
generated placeholder token already occurs in the source text, then
`restore_privacy` applied to `redact_pii`'s redacted text and mapping
returns the source text exactly. -/
theorem privacy_roundtrip (t : Text) (results : List Span)
    (hb : ∀ r ∈ results, r.start < r.stop ∧ r.stop ≤ t.length)
    (hty : ∀ r ∈ results, r.entity_type ∈ presidioEntities)
    (hov : results.Pairwise (fun a b => a.stop ≤ b.start ∨ b.stop ≤ a.start))
    (hcol : ∀ pv ∈ (redact_pii t results).2, ¬ pv.1 <:+: t) :
    restore_privacy (redact_pii t results).1 (redact_pii t results).2 = t := by
  by_cases ht : t = []
  · subst ht
    simp [redact_pii, restore_privacy]
  · have hred : redact_pii t results
        = ((redactLoop t (sortSpansDesc results) ([], [], t)).2.2,
           (redactLoop t (sortSpansDesc results) ([], [], t)).2.1) := by
      simp [redact_pii, ht]
    set P := sortSpansDesc results with hPdef
    have hperm : P.Perm results := List.perm_insertionSort _ results
    have hsort : List.Sorted (fun a b => b.start ≤ a.start) P :=
      List.sorted_insertionSort _ results
    have hb' : ∀ s ∈ P, s.start < s.stop ∧ s.stop ≤ t.length :=
      fun s hs => hb s (hperm.mem_iff.mp hs)
    have hty' : ∀ s ∈ P, s.entity_type ∈ presidioEntities :=
      fun s hs => hty s (hperm.mem_iff.mp hs)
    have hov' : P.Pairwise (fun a b => a.stop ≤ b.start ∨ b.stop ≤ a.start) :=
      (hperm.pairwise_iff (fun h => h.symm)).mpr hov
    set A := annotate [] P with hAdef
    have hFOK : FOK t A := FOK_of_sorted P t [] hsort hov' hb'
    have hpw : A.Pairwise (fun x y => x.2 ≠ y.2) := annotate_pairwise_ne P hty' []
    have hmap : (redact_pii t results).2
        = A.map (fun x => (x.2, (t.take x.1.stop).drop x.1.start)) := by
      rw [hred]
      have := redactLoop_mapping t P [] [] t
        (fun x _ pv hpv => absurd hpv (by simp)) hpw
      simpa using this
    have hbr : ∀ x ∈ A, Bracketed x.2 := by
      intro x hx
      obtain ⟨n, he, -⟩ := annotate_token_gt P [] x hx
      rw [he]
      exact bracketed_placeholder (hty' x.1 (annotate_fst_mem P [] x hx)) n
    have hocc : ∀ x ∈ A, ¬ x.2 <:+: (t ++ []) := by
      intro x hx
      rw [List.append_nil]
      refine hcol (x.2, (t.take x.1.stop).drop x.1.start) ?_
      rw [hmap]
      exact List.mem_map_of_mem _ hx
    have hF : (redact_pii t results).1 = F t A := by
      rw [hred]
      exact redactLoop_red t P [] [] t hFOK
    have hmain := restore_F A t [] hFOK hbr hocc hpw
    rw [List.append_nil, List.append_nil] at hmain
    show (redact_pii t results).2.foldl
      (fun restored pv => replaceAll pv.1 pv.2 restored) (redact_pii t results).1 = t
    rw [hF, hmap]
    exact hmain

/-- C10. Placeholder numbering follows descending start-offset processing
order with independent per-type counters starting at 1: spans are processed
from the highest start offset to the lowest, and for two PERSON spans at
offsets `[0,5)` and `[10,15)` in a 15-character text, the span starting at
10 receives `<PERSON_1>` and the span starting at 0 receives `<PERSON_2>`. -/
theorem placeholder_numbering_order :
    (∀ results : List Span,
      List.Sorted (fun a b => b.start ≤ a.start) (sortSpansDesc results)) ∧
    (redact_pii "ABCDEFGHIJKLMNO".data
        [⟨"PERSON", 0, 5⟩, ⟨"PERSON", 10, 15⟩]).2
      = [("<PERSON_1>".data, "KLMNO".data), ("<PERSON_2>".data, "ABCDE".data)] ∧
    (redact_pii "ABCDEFGHIJKLMNO".data
        [⟨"PERSON", 0, 5⟩, ⟨"PERSON", 10, 15⟩]).1
      = "<PERSON_2>FGHIJ<PERSON_1>".data := by
  refine ⟨fun results => List.sorted_insertionSort _ results, by decide, by decide⟩

/-- Witness for C1 at a concrete input: a PERSON span and a DATE_TIME span
in "Call Bob at 5pm". -/
theorem privacy_roundtrip_witness :
    restore_privacy
      (redact_pii "Call Bob at 5pm".data [⟨"PERSON", 5, 8⟩, ⟨"DATE_TIME", 12, 15⟩]).1
      (redact_pii "Call Bob at 5pm".data [⟨"PERSON", 5, 8⟩, ⟨"DATE_TIME", 12, 15⟩]).2
      = "Call Bob at 5pm".data :=
  privacy_roundtrip "Call Bob at 5pm".data
    [⟨"PERSON", 5, 8⟩, ⟨"DATE_TIME", 12, 15⟩]
    (by decide) (by decide) (by decide) (by decide)

/-! ## Knowledge Engine (`MedicalReasoningEngine`, knowledge_core/medical_engine.py)

The ArangoDB store is modelled as data: a concept collection (in collection
order) and the synonym map (lowercase alias → concept key). The three AQL
query shapes `resolve_entity` sends are embedded by their semantics:
`DOCUMENT(CONCAT('concepts/', id))`, `FILTER d.name == @q LIMIT 1`
(case-sensitive equality), and `FILTER LIKE(d.name, CONCAT(@q, "%"), true)
SORT LENGTH(d.name) ASC LIMIT 1` (case-insensitive prefix, shortest name).
Python's `str.lower` is modelled via `Char.toLower` (ASCII case folding). -/

/-- A node of the `concepts` collection: `_key` and `name`. -/
structure Concept where
  key : String
  name : String
deriving DecidableEq, Repr

/-- The engine's store-side state: the concept collection and the
lowercase-alias → concept-key synonym map. -/
structure MedStore where
  concepts : List Concept
  synonym_map : List (String × String)

/-- Python `str.lower()` (ASCII case folding). -/
def lowerStr (s : String) : String := String.mk (s.data.map Char.toLower)

/-- `fetch_node_by_id`: `RETURN DOCUMENT(CONCAT('concepts/', @id))`. -/
def fetch_node_by_id (st : MedStore) (node_id : String) : Option Concept :=
  st.concepts.find? (fun c => c.key == node_id)

/-- Tier 2 query: `FILTER d.name == @q LIMIT 1` — case-sensitive equality,
first match in collection order. -/
def aql_exact (st : MedStore) (q : String) : Option Concept :=
  st.concepts.find? (fun c => c.name == q)

/-- `LIKE(d.name, CONCAT(@q, "%"), true)`: `q` is a prefix of the name,
compared case-insensitively. (Wildcard characters inside `q` are not
modelled; no claim involves them.) -/
def ciStartsWith (q name : String) : Bool :=
  (lowerStr q).data.isPrefixOf (lowerStr name).data

/-- Tier 3 sort: `SORT LENGTH(d.name) ASC` (stable). -/
def sortByNameLength (l : List Concept) : List Concept :=
  List.insertionSort (fun a b => a.name.length ≤ b.name.length) l

/-- Tier 3 query: case-insensitive prefix matches, shortest name first,
`LIMIT 1`. -/
def aql_fuzzy (st : MedStore) (q : String) : Option Concept :=
  (sortByNameLength (st.concepts.filter (fun c => ciStartsWith q c.name))).head?

/-- Tiers 2 and 3 of `resolve_entity` (reached when the synonym tier does
not return). -/
def resolve_tail (st : MedStore) (user_query : String) : Option Concept :=
  match aql_exact st user_query with
  | some c => some c
  | none => aql_fuzzy st user_query

/-- `MedicalReasoningEngine.resolve_entity`: synonym lookup on the
lowercased term (returning only if the mapped concept exists), then exact
name match, then fuzzy prefix match. -/
def resolve_entity (st : MedStore) (user_query : String) : Option Concept :=
  match List.lookup (lowerStr user_query) st.synonym_map with
  | some concept_id =>
    match fetch_node_by_id st concept_id with
    | some node => some node
    | none => resolve_tail st user_query
  | none => resolve_tail st user_query

/-- The synonym tier misses: every alias hit resolves to no stored node. -/
def Tier1Miss (st : MedStore) (q : String) : Prop :=
  ∀ cid, List.lookup (lowerStr q) st.synonym_map = some cid →
    fetch_node_by_id st cid = none

theorem resolve_entity_of_tier1Miss {st : MedStore} {q : String}
    (h : Tier1Miss st q) : resolve_entity st q = resolve_tail st q := by
  unfold resolve_entity
  cases hl : List.lookup (lowerStr q) st.synonym_map with
  | none => rfl
  | some cid =>
    show (match fetch_node_by_id st cid with
      | some node => some node
      | none => resolve_tail st q) = resolve_tail st q
    rw [h cid hl]

instance : IsTotal Concept (fun a b => a.name.length ≤ b.name.length) :=
  ⟨fun a b => le_total a.name.length b.name.length⟩

instance : IsTrans Concept (fun a b => a.name.length ≤ b.name.length) :=
  ⟨fun _ _ _ hab hbc => le_trans hab hbc⟩

/-- C5 (counterexample). `resolve_entity` is not case-insensitive: its exact
tier compares `d.name == @q` case-sensitively, so two spellings of the same
term can resolve to different concepts. Store: concepts named "ab" (key c1)
and "aB" (key c2), no synonyms. The term "aB" resolves (exact tier) to c2,
while its lowercase form "ab" resolves to c1. -/
theorem resolve_entity_not_case_insensitive :
    resolve_entity ⟨[⟨"c1", "ab"⟩, ⟨"c2", "aB"⟩], []⟩ "aB" = some ⟨"c2", "aB"⟩ ∧
    lowerStr "aB" = "ab" ∧
    resolve_entity ⟨[⟨"c1", "ab"⟩, ⟨"c2", "aB"⟩], []⟩ "ab" = some ⟨"c1", "ab"⟩ ∧
    resolve_entity ⟨[⟨"c1", "ab"⟩, ⟨"c2", "aB"⟩], []⟩ "aB"
      ≠ resolve_entity ⟨[⟨"c1", "ab"⟩, ⟨"c2", "aB"⟩], []⟩ (lowerStr "aB") := by
  refine ⟨by decide, by decide, by decide, by decide⟩

/-- C5 (amended). `resolve_entity` resolves in three first-match-wins tiers:
(1) synonym-alias lookup on the lowercased term, returning only when the
mapped concept exists in the store — in particular a term matching both a
synonym entry and an exact-name concept returns the synonym result; (2)
exact name match, case-SENSITIVE (this is the one amendment to the claim);
(3) case-insensitive prefix match in which the shortest name wins and
exactly one result is returned; NotFound exactly when all tiers miss. -/
theorem resolve_entity_tiers (st : MedStore) (q : String) :
    (∀ cid node, List.lookup (lowerStr q) st.synonym_map = some cid →
      fetch_node_by_id st cid = some node →
      resolve_entity st q = some node) ∧
    (Tier1Miss st q →
      ∀ c ∈ st.concepts, c.name = q →
        ∃ c', resolve_entity st q = some c' ∧ c'.name = q) ∧
    (Tier1Miss st q →
      (∀ c ∈ st.concepts, c.name ≠ q) →
      ∀ c ∈ st.concepts, ciStartsWith q c.name = true →
        ∃ c', resolve_entity st q = some c' ∧ c' ∈ st.concepts ∧
          ciStartsWith q c'.name = true ∧
          ∀ d ∈ st.concepts, ciStartsWith q d.name = true →
            c'.name.length ≤ d.name.length) ∧
    (resolve_entity st q = none ↔
      (Tier1Miss st q ∧
        ∀ c ∈ st.concepts, c.name ≠ q ∧ ciStartsWith q c.name = false)) := by
  refine ⟨?_, ?_, ?_, ?_⟩
  · -- tier 1 wins over everything
    intro cid node h1 h2
    unfold resolve_entity
    rw [h1]
    show (match fetch_node_by_id st cid with
      | some node => some node
      | none => resolve_tail st q) = some node
    rw [h2]
  · -- tier 2: exact (case-sensitive) name match
    intro hmiss c hc hname
    rw [resolve_entity_of_tier1Miss hmiss]
    unfold resolve_tail
    cases hfind : aql_exact st q with
    | some c' =>
      exact ⟨c', rfl, by simpa using List.find?_some hfind⟩
    | none =>
      exfalso
      have := List.find?_eq_none.mp hfind c hc
      simp [hname] at this
  · -- tier 3: shortest case-insensitive prefix match
    intro hmiss hnoexact c hc hpre
    rw [resolve_entity_of_tier1Miss hmiss]
    unfold resolve_tail
    have hexact : aql_exact st q = none := by
      refine List.find?_eq_none.mpr (fun x hx => ?_)
      simp [hnoexact x hx]
    rw [hexact]
    unfold aql_fuzzy sortByNameLength
    set l := st.concepts.filter (fun c => ciStartsWith q c.name) with hl
    have hperm := List.perm_insertionSort
      (fun a b : Concept => a.name.length ≤ b.name.length) l
    have hsorted := List.sorted_insertionSort
      (fun a b : Concept => a.name.length ≤ b.name.length) l
    have hcmem : c ∈ l := List.mem_filter.mpr ⟨hc, hpre⟩
    cases hs : List.insertionSort (fun a b => a.name.length ≤ b.name.length) l with
    | nil =>
      exfalso
      rw [hs] at hperm
      exact absurd (hperm.symm.subset hcmem) (by simp)
    | cons c' rest =>
      refine ⟨c', rfl, ?_, ?_, ?_⟩
      · have : c' ∈ l := hperm.subset (hs ▸ List.mem_cons_self c' rest)
        exact (List.mem_filter.mp this).1
      · have : c' ∈ l := hperm.subset (hs ▸ List.mem_cons_self c' rest)
        exact (List.mem_filter.mp this).2
      · intro d hd hdpre
        have hdl : d ∈ l := List.mem_filter.mpr ⟨hd, hdpre⟩
        have : d ∈ c' :: rest := hs ▸ hperm.symm.subset hdl
        rcases List.mem_cons.mp this with rfl | hdr
        · exact le_refl _
        · exact List.rel_of_sorted_cons (hs ▸ hsorted) d hdr
  · -- NotFound exactly when every tier misses
    constructor
    · intro hnone
      have hmiss : Tier1Miss st q := by
        intro cid hcid
        cases hfetch : fetch_node_by_id st cid with
        | none => rfl
        | some node =>
          exfalso
          have : resolve_entity st q = some node := by
            unfold resolve_entity
            rw [hcid]
            show (match fetch_node_by_id st cid with
              | some node => some node
              | none => resolve_tail st q) = some node
            rw [hfetch]
          rw [hnone] at this
          exact absurd this (by simp)
      refine ⟨hmiss, ?_⟩
      rw [resolve_entity_of_tier1Miss hmiss] at hnone
      unfold resolve_tail at hnone
      cases hfind : aql_exact st q with
      | some c' => rw [hfind] at hnone; exact absurd hnone (by simp)
      | none =>
        rw [hfind] at hnone
        intro c hc
        constructor
        · intro hname
          have := List.find?_eq_none.mp hfind c hc
          simp [hname] at this
        · by_contra hcon
          have hpre : ciStartsWith q c.name = true := by
            cases h : ciStartsWith q c.name with
            | true => rfl
            | false => exact absurd h hcon
          have hcmem : c ∈ st.concepts.filter (fun c => ciStartsWith q c.name) :=
            List.mem_filter.mpr ⟨hc, hpre⟩
          unfold aql_fuzzy sortByNameLength at hnone
          have hsnil := List.head?_eq_none_iff.mp hnone
          have hperm := List.perm_insertionSort
            (fun a b : Concept => a.name.length ≤ b.name.length)
            (st.concepts.filter (fun c => ciStartsWith q c.name))
          rw [hsnil] at hperm
          have hfil := hperm.symm.eq_nil
          rw [hfil] at hcmem
          exact absurd hcmem (by simp)
    · rintro ⟨hmiss, hall⟩
      rw [resolve_entity_of_tier1Miss hmiss]
      unfold resolve_tail
      have hexact : aql_exact st q = none := by
        refine List.find?_eq_none.mpr (fun x hx => ?_)
        simp [(hall x hx).1]
      rw [hexact]
      unfold aql_fuzzy sortByNameLength
      have hfil : st.concepts.filter (fun c => ciStartsWith q c.name) = [] := by
        refine List.filter_eq_nil_iff.mpr (fun x hx => ?_)
        simp [(hall x hx).2]
      rw [hfil]
      rfl

/-- Witness for C5's amended theorem: a term ("Flu") matching both a synonym
entry (alias "flu" → key c1, "Influenza") and an exact-name concept ("Flu",
key c9) returns the synonym result. -/
theorem resolve_entity_tiers_witness :
    resolve_entity ⟨[⟨"c1", "Influenza"⟩, ⟨"c9", "Flu"⟩], [("flu", "c1")]⟩ "Flu"
      = some ⟨"c1", "Influenza"⟩ :=
  (resolve_entity_tiers ⟨[⟨"c1", "Influenza"⟩, ⟨"c9", "Flu"⟩], [("flu", "c1")]⟩ "Flu").1
    "c1" ⟨"c1", "Influenza"⟩ (by decide) (by decide)

/-! ### `search_and_reason`

The graph traversal (`FOR v, e, p IN 1..2 ANY @startId concept_relations
LIMIT 20`) is an opaque knowledge-store call: it is a parameter `traverse`
whose result stream the `LIMIT 20` caps. The embedding matrix and cosine
similarity are modelled as an optional row-pair similarity function over
`ℚ` (`embeddings is None` ⟷ `cos = none`); only comparisons of scores are
observable. -/

/-- One traversal result row: target key/name, relation type, hop count. -/
structure Fact where
  key : String
  name : String
  relation : String
  hop : Nat
deriving DecidableEq, Repr

/-- A fact with its relevance score (`{**fact, "score": float(score)}`). -/
structure SFact where
  key : String
  name : String
  relation : String
  hop : Nat
  score : ℚ
deriving DecidableEq, Repr

/-- Engine-side ranking state: `key_to_idx` and the memory-mapped embedding
matrix, present as its pairwise cosine-similarity function. -/
structure EngineAssets where
  key_to_idx : List (String × Nat)
  cos : Option (Nat → Nat → ℚ)

/-- The per-fact scoring of `search_and_reason`'s ranking loop: cosine
similarity of the anchor row and target row when the anchor is indexed,
the matrix is loaded, and the target is indexed; otherwise `0.0`. -/
def scoreFact (assets : EngineAssets) (anchorKey : String) (f : Fact) : SFact :=
  let score : ℚ :=
    match assets.cos, List.lookup anchorKey assets.key_to_idx,
        List.lookup f.key assets.key_to_idx with
    | some cs, some ai, some ti => cs ai ti
    | _, _, _ => 0
  ⟨f.key, f.name, f.relation, f.hop, score⟩

/-- `MedicalReasoningEngine.search_and_reason`: resolve the anchor (empty
list on NotFound), traverse (capped at 20), empty list for an isolate node,
score each fact, stable-sort descending by score (`list.sort` with
`reverse=True` is stable), return the first `top_k` (default 10). -/
def search_and_reason (st : MedStore) (assets : EngineAssets)
    (traverse : String → List Fact) (user_query : String)
    (top_k : Nat := 10) : List SFact :=
  match resolve_entity st user_query with
  | none => []
  | some anchor =>
    let facts := (traverse ("concepts/" ++ anchor.key)).take 20
    if facts.isEmpty then []
    else
      let ranked := facts.map (scoreFact assets anchor.key)
      (List.insertionSort (fun a b => b.score ≤ a.score) ranked).take top_k

instance : IsTotal SFact (fun a b => b.score ≤ a.score) :=
  ⟨fun a b => le_total b.score a.score⟩

instance : IsTrans SFact (fun a b => b.score ≤ a.score) :=
  ⟨fun _ _ _ hab hbc => le_trans hbc hab⟩

/-- Stability of the descending insertion sort, characterized by filters:
the elements of any one score keep their traversal order. -/
theorem filter_orderedInsert_score (a : SFact) (c : ℚ) :
    ∀ l : List SFact,
      (List.orderedInsert (fun x y => y.score ≤ x.score) a l).filter
          (fun f => decide (f.score = c))
        = if a.score = c then a :: l.filter (fun f => decide (f.score = c))
          else l.filter (fun f => decide (f.score = c)) := by
  intro l
  induction l with
  | nil =>
    by_cases hc : a.score = c <;> simp [List.orderedInsert, hc]
  | cons b l ih =>
    rw [List.orderedInsert]
    by_cases hr : b.score ≤ a.score
    · rw [if_pos hr]
      by_cases hc : a.score = c
      · rw [if_pos hc, List.filter_cons, if_pos (by simpa using hc)]
      · rw [if_neg hc, List.filter_cons, if_neg (by simpa using hc)]
    · rw [if_neg hr]
      push_neg at hr
      by_cases hbc : b.score = c
      · have hac : ¬ a.score = c := fun h =>
          absurd hr (by rw [h, hbc]; exact lt_irrefl c)
        rw [List.filter_cons, if_pos (by simpa using hbc), ih, if_neg hac,
          if_neg hac, List.filter_cons, if_pos (by simpa using hbc)]
      · rw [List.filter_cons, if_neg (by simpa using hbc), ih]
        by_cases hc : a.score = c
        · rw [if_pos hc, if_pos hc, List.filter_cons,
            if_neg (by simpa using hbc)]
        · rw [if_neg hc, if_neg hc, List.filter_cons,
            if_neg (by simpa using hbc)]

theorem filter_insertionSort_score (c : ℚ) :
    ∀ l : List SFact,
      (List.insertionSort (fun a b => b.score ≤ a.score) l).filter
          (fun f => decide (f.score = c))
        = l.filter (fun f => decide (f.score = c)) := by
  intro l
  induction l with
  | nil => rfl
  | cons a l ih =>
    rw [List.insertionSort, filter_orderedInsert_score]
    by_cases hc : a.score = c
    · rw [if_pos hc, ih, List.filter_cons, if_pos (by simpa using hc)]
    · rw [if_neg hc, ih, List.filter_cons, if_neg (by simpa using hc)]

theorem scoreFact_score_zero {assets : EngineAssets} {anchorKey : String}
    {g : Fact}
    (h : assets.cos = none ∨ List.lookup anchorKey assets.key_to_idx = none ∨
      List.lookup g.key assets.key_to_idx = none) :
    (scoreFact assets anchorKey g).score = 0 := by
  unfold scoreFact
  rcases h with h | h | h
  · rw [h]
  · rw [h]
    cases assets.cos <;>
      cases List.lookup g.key assets.key_to_idx <;> rfl
  · rw [h]
    cases assets.cos <;>
      cases List.lookup anchorKey assets.key_to_idx <;> rfl

theorem search_and_reason_of_resolved {st : MedStore} {assets : EngineAssets}
    {traverse : String → List Fact} {q : String} {anchor : Concept} (k : Nat)
    (h : resolve_entity st q = some anchor) :
    search_and_reason st assets traverse q k
      = (List.insertionSort (fun a b => b.score ≤ a.score)
          (((traverse ("concepts/" ++ anchor.key)).take 20).map
            (scoreFact assets anchor.key))).take k := by
  unfold search_and_reason
  rw [h]
  show (if ((traverse ("concepts/" ++ anchor.key)).take 20).isEmpty then []
    else (List.insertionSort (fun a b => b.score ≤ a.score)
      (((traverse ("concepts/" ++ anchor.key)).take 20).map
        (scoreFact assets anchor.key))).take k) = _
  by_cases hemp : ((traverse ("concepts/" ++ anchor.key)).take 20).isEmpty
  · rw [if_pos hemp]
    rw [List.isEmpty_iff] at hemp
    rw [hemp]
    simp
  · rw [if_neg hemp]

/-- C6. `search_and_reason` returns the empty list when the anchor does not
resolve or has no traversal neighbors; otherwise at most `min topK 20`
facts drawn from the depth-≤2 traversal capped at 20 edges, each scored by
cosine similarity to the anchor (score 0 when the matrix is absent or the
anchor or target is unindexed), stable-sorted descending by score (ties
preserve traversal order) and truncated to the first `topK`. -/
theorem search_and_reason_spec (st : MedStore) (assets : EngineAssets)
    (traverse : String → List Fact) (q : String) (k : Nat) :
    (resolve_entity st q = none → search_and_reason st assets traverse q k = []) ∧
    (search_and_reason st assets traverse q k).length ≤ min k 20 ∧
    (∀ anchor, resolve_entity st q = some anchor →
      ((traverse ("concepts/" ++ anchor.key)).take 20 = [] →
        search_and_reason st assets traverse q k = []) ∧
      (∀ f ∈ search_and_reason st assets traverse q k,
        ∃ g ∈ (traverse ("concepts/" ++ anchor.key)).take 20,
          f = scoreFact assets anchor.key g) ∧
      (∀ f ∈ search_and_reason st assets traverse q k,
        ∀ g : Fact, f = scoreFact assets anchor.key g →
        (assets.cos = none ∨ List.lookup anchor.key assets.key_to_idx = none ∨
          List.lookup g.key assets.key_to_idx = none) → f.score = 0) ∧
      List.Sorted (fun a b => b.score ≤ a.score)
        (search_and_reason st assets traverse q k) ∧
      (∃ S : List SFact,
        S.Perm (((traverse ("concepts/" ++ anchor.key)).take 20).map
          (scoreFact assets anchor.key)) ∧
        List.Sorted (fun a b => b.score ≤ a.score) S ∧
        (∀ c : ℚ, S.filter (fun f => decide (f.score = c))
          = (((traverse ("concepts/" ++ anchor.key)).take 20).map
              (scoreFact assets anchor.key)).filter
              (fun f => decide (f.score = c))) ∧
        search_and_reason st assets traverse q k = S.take k)) := by
  refine ⟨?_, ?_, ?_⟩
  · intro h
    unfold search_and_reason
    rw [h]
  · cases hres : resolve_entity st q with
    | none =>
      have : search_and_reason st assets traverse q k = [] := by
        unfold search_and_reason
        rw [hres]
      rw [this]
      simp
    | some anchor =>
      rw [search_and_reason_of_resolved k hres]
      have h20 : ((traverse ("concepts/" ++ anchor.key)).take 20).length ≤ 20 := by
        simp
      have hsortlen := (List.perm_insertionSort (fun a b : SFact => b.score ≤ a.score)
        (((traverse ("concepts/" ++ anchor.key)).take 20).map
          (scoreFact assets anchor.key))).length_eq
      simp only [List.length_take, List.length_map] at hsortlen ⊢
      omega
  · intro anchor hres
    have heq := @search_and_reason_of_resolved st assets traverse q anchor k hres
    refine ⟨?_, ?_, ?_, ?_, ?_⟩
    · intro hnil
      rw [heq, hnil]
      simp
    · intro f hf
      rw [heq] at hf
      have hf2 := List.Sublist.mem hf (List.take_sublist k _)
      have hf3 := (List.perm_insertionSort
        (fun a b : SFact => b.score ≤ a.score) _).subset hf2
      obtain ⟨g, hg, hfg⟩ := List.mem_map.mp hf3
      exact ⟨g, hg, hfg.symm⟩
    · intro f hf g hg hzero
      rw [hg]
      exact scoreFact_score_zero hzero
    · rw [heq]
      exact List.Pairwise.sublist (List.take_sublist _ _)
        (List.sorted_insertionSort _ _)
    · refine ⟨List.insertionSort (fun a b => b.score ≤ a.score)
        (((traverse ("concepts/" ++ anchor.key)).take 20).map
          (scoreFact assets anchor.key)),
        List.perm_insertionSort _ _,
        List.sorted_insertionSort _ _,
        fun c => filter_insertionSort_score c _,
        heq⟩

/-- Witness for C6: an unresolvable anchor yields the empty list. -/
theorem search_and_reason_spec_witness :
    search_and_reason ⟨[], []⟩ ⟨[], none⟩ (fun _ => []) "flu" 10 = [] :=
  (search_and_reason_spec ⟨[], []⟩ ⟨[], none⟩ (fun _ => []) "flu" 10).1 (by decide)

/-! ## Routing stage (`node_router` / `route_decision`, orchestrator.py)

The routing model's raw output is cleaned and `json.loads`-parsed inside a
`try`; the parse outcome is the input of the embedding. `PyVal` is the
parsed JSON value; `Except Unit` is the exception path of the `try` block
(any parse/LLM failure). `node_router` then publishes `str(routes)` as a
message which `route_decision` `eval`s back (a round trip on these values),
filters to known registry keys, caps at `MAX_CONCURRENT_AGENTS`, and falls
back to `["diagnosis"]` when nothing is left or anything raised. -/

/-- A parsed JSON/Python value (the shapes the routing code and the agent
card schemas can hold). -/
inductive PyVal where
  | str (s : String)
  | num (n : Int)
  | list (l : List PyVal)
  | dict (l : List (String × PyVal))
  | other

/-- A2A §4.1 — Maximum agents per request (circuit breaker). -/
def MAX_CONCURRENT_AGENTS : Nat := 3

/-- The keys of `AGENT_REGISTRY` (specialized_agents/agents.py). -/
def AGENT_REGISTRY_keys : List String :=
  ["pubmed", "diagnosis", "report", "patient", "drug"]

/-- `node_router`'s post-parse logic: a parse/LLM failure falls back to
`["diagnosis"]` (the `except` branch); a parsed non-list value falls back
to `["pubmed"]`; a parsed list is forwarded unchanged. -/
def node_router_routes (parsed : Except Unit PyVal) : List PyVal :=
  match parsed with
  | .error _ => [.str "diagnosis"]
  | .ok v =>
    match v with
    | .list l => l
    | _ => [.str "pubmed"]

/-- The registry-membership filter of `route_decision`'s list
comprehension `[r for r in routes if r in AGENT_REGISTRY]` (an entry that
is not a string is never a dict key). -/
def routeFilter (r : PyVal) : Option String :=
  match r with
  | .str s => if s ∈ AGENT_REGISTRY_keys then some s else none
  | _ => none

/-- `route_decision`: `eval` the router's message (its failure is the
`except` branch, falling back to `["diagnosis"]`), keep entries that are
registry keys, cap at `MAX_CONCURRENT_AGENTS`, and fall back to
`["diagnosis"]` when the filtered list is empty. -/
def route_decision (msg : Except Unit (List PyVal)) : List String :=
  match msg with
  | .error _ => ["diagnosis"]
  | .ok routes =>
    if ((routes.filterMap routeFilter).take MAX_CONCURRENT_AGENTS).isEmpty
    then ["diagnosis"]
    else (routes.filterMap routeFilter).take MAX_CONCURRENT_AGENTS

/-- The routing stage end to end: `node_router` encodes its list as a
message (`str(routes)`), `route_decision` decodes and dispatches; the
encode/decode round trip on these values is the identity. -/
def routingStage (parsed : Except Unit PyVal) : List String :=
  route_decision (.ok (node_router_routes parsed))

/-- C3. Routing never dispatches more than 3 responders: the parsed list is
filtered to known registry keys and truncated to the first 3 while
preserving order; a routing output naming all 5 known responders
dispatches only the first 3. -/
theorem routing_cap_three :
    (∀ msg : Except Unit (List PyVal), (route_decision msg).length ≤ 3) ∧
    (∀ l : List PyVal,
      (l.filterMap routeFilter).take MAX_CONCURRENT_AGENTS ≠ [] →
      route_decision (.ok l)
        = (l.filterMap routeFilter).take MAX_CONCURRENT_AGENTS) ∧
    routingStage (.ok (.list [.str "pubmed", .str "diagnosis", .str "report",
        .str "patient", .str "drug"]))
      = ["pubmed", "diagnosis", "report"] := by
  refine ⟨?_, ?_, by decide⟩
  · intro msg
    match msg with
    | .error _ => show (["diagnosis"] : List String).length ≤ 3; decide
    | .ok routes =>
      show (if _ then ["diagnosis"] else _).length ≤ 3
      split
      · decide
      · simp only [List.length_take, MAX_CONCURRENT_AGENTS]
        omega
  · intro l hne
    show (if _ then ["diagnosis"] else _) = _
    rw [if_neg (by simpa [List.isEmpty_iff] using hne)]

/-- Witness for C3's conditional part: three of five valid keys remain. -/
theorem routing_cap_three_witness :
    route_decision (.ok [PyVal.str "pubmed", PyVal.str "drug", PyVal.str "patient",
        PyVal.str "report", PyVal.str "diagnosis"])
      = ["pubmed", "drug", "patient"] :=
  (routing_cap_three.2.1 [PyVal.str "pubmed", PyVal.str "drug", PyVal.str "patient",
    PyVal.str "report", PyVal.str "diagnosis"] (by decide)).trans (by decide)

/-- C7 (counterexample). The routing fallback paths do NOT all select the
same default responder: a parsed non-list routing output falls back to
`["pubmed"]` (`node_router`'s `isinstance` guard), while a parse failure
falls back to `["diagnosis"]` (its `except` branch). -/
theorem routing_fallbacks_differ :
    routingStage (.ok (.num 7)) = ["pubmed"] ∧
    routingStage (.error ()) = ["diagnosis"] ∧
    routingStage (.ok (.num 7)) ≠ routingStage (.error ()) := by
  refine ⟨by decide, by decide, by decide⟩

/-- C7 (amended). The routing fallbacks are fixed but not all equal: a
routing-model parse failure falls back to the single responder
`"diagnosis"`; a parsed value that is not a list falls back to the single
responder `"pubmed"`; a parsed list whose registry-filtered form is empty
falls back to `"diagnosis"`. -/
theorem routing_fallbacks (e : Unit) (v : PyVal) (l : List PyVal) :
    routingStage (.error e) = ["diagnosis"] ∧
    ((∀ l', v ≠ .list l') → routingStage (.ok v) = ["pubmed"]) ∧
    (l.filterMap routeFilter = [] →
      routingStage (.ok (.list l)) = ["diagnosis"]) := by
  refine ⟨rfl, ?_, ?_⟩
  · intro hnl
    match v, hnl with
    | .str s, _ => rfl
    | .num n, _ => rfl
    | .dict d, _ => rfl
    | .other, _ => rfl
    | .list l', hnl => exact absurd rfl (hnl l')
  · intro hfil
    show (if ((l.filterMap routeFilter).take MAX_CONCURRENT_AGENTS).isEmpty
      then ["diagnosis"]
      else (l.filterMap routeFilter).take MAX_CONCURRENT_AGENTS) = ["diagnosis"]
    rw [hfil]
    rfl

/-- Witness for C7's amended theorem: a non-list routing output and an
unknown-key list. -/
theorem routing_fallbacks_witness :
    routingStage (.ok (.str "pubmed")) = ["pubmed"] ∧
    routingStage (.ok (.list [.str "oncology"])) = ["diagnosis"] :=
  ⟨(routing_fallbacks () (.str "pubmed") []).2.1 (fun l' h => by cases h),
   (routing_fallbacks () .other [.str "oncology"]).2.2 (by decide)⟩

/-! ## RetrieveKnowledge stage (`node_retrieve_knowledge`, orchestrator.py)

The entity-extraction model call, the cleanup and `json.loads` all happen
inside one `try`; the embedding takes the outcome: `.error` for any raised
exception (unparseable output, a non-string `entity` whose `.lower()`
raises, a failed model call), `.ok none` for a falsy parsed object or a
missing/null `entity`, `.ok (some t)` for an extracted string. `consult`
is the knowledge lookup (`consult_medical_knowledge`); the returned flag
records whether it was called. -/

/-- The fixed no-concept context string. -/
def noConceptMsg : String := "No specific medical knowledge concept found in query."

/-- The `except`-branch context string. -/
def extractionErrorMsg : String := "Error retrieving knowledge."

/-- `node_retrieve_knowledge`'s context computation: (context string,
whether the knowledge store was consulted). -/
def node_retrieve_knowledge (extracted : Except Unit (Option String))
    (consult : String → String) : String × Bool :=
  match extracted with
  | .error _ => (extractionErrorMsg, false)
  | .ok none => (noConceptMsg, false)
  | .ok (some search_term) =>
    if search_term ≠ "" ∧ lowerStr search_term ≠ "none" then
      (consult search_term, true)
    else
      (noConceptMsg, false)

/-- C8 (counterexample). A parse failure does NOT record the fixed
"no concept found" string: the `except` branch records
"Error retrieving knowledge." instead (though it does skip the lookup). -/
theorem retrieve_knowledge_parse_failure_string :
    (node_retrieve_knowledge (.error ()) (fun _ => "")).1 = extractionErrorMsg ∧
    (node_retrieve_knowledge (.error ()) (fun _ => "")).1 ≠ noConceptMsg := by
  refine ⟨rfl, by decide⟩

/-- C8 (amended). For every extraction outcome that is a parse failure, an
empty/null result, or the explicit "none" sentinel, the knowledge lookup
is skipped; the empty/null and "none" outcomes record exactly the fixed
string "No specific medical knowledge concept found in query.", while a
parse failure records "Error retrieving knowledge.". -/
theorem retrieve_knowledge_failure_modes (e : Unit) (t : String)
    (consult : String → String) :
    node_retrieve_knowledge (.error e) consult = (extractionErrorMsg, false) ∧
    node_retrieve_knowledge (.ok none) consult = (noConceptMsg, false) ∧
    (t = "" ∨ lowerStr t = "none" →
      node_retrieve_knowledge (.ok (some t)) consult = (noConceptMsg, false)) ∧
    (t ≠ "" → lowerStr t ≠ "none" →
      node_retrieve_knowledge (.ok (some t)) consult = (consult t, true)) := by
  refine ⟨rfl, rfl, ?_, ?_⟩
  · intro h
    show (if t ≠ "" ∧ lowerStr t ≠ "none" then (consult t, true)
      else (noConceptMsg, false)) = (noConceptMsg, false)
    rw [if_neg]
    rintro ⟨h1, h2⟩
    rcases h with h | h
    · exact h1 h
    · exact h2 h
  · intro h1 h2
    show (if t ≠ "" ∧ lowerStr t ≠ "none" then (consult t, true)
      else (noConceptMsg, false)) = (consult t, true)
    rw [if_pos ⟨h1, h2⟩]

/-- Witness for C8's amended theorem: the "none" sentinel and a real term. -/
theorem retrieve_knowledge_failure_modes_witness :
    node_retrieve_knowledge (.ok (some "None")) (fun t => "ctx:" ++ t)
        = (noConceptMsg, false) ∧
    node_retrieve_knowledge (.ok (some "fever")) (fun t => "ctx:" ++ t)
        = ("ctx:fever", true) :=
  ⟨(retrieve_knowledge_failure_modes () "None" (fun t => "ctx:" ++ t)).2.2.1
      (Or.inr (by decide)),
   (retrieve_knowledge_failure_modes () "fever" (fun t => "ctx:" ++ t)).2.2.2
      (by decide) (by decide)⟩

/-! ## A2A protocol (`specialized_agents/protocols.py`, `base.py`)

The language model behind a responder is an opaque text-in/text-out
collaborator: a parameter `llm : String → String`. A tool is a named,
described callable whose invocation may raise (`Except`). Wall-clock
timestamp fields and uuid defaults are external inputs and are omitted /
caller-supplied. The `re`-based parsing of the model's response is embedded
by the semantics of the three searches the loop performs; all captures are
`.strip()`-ed at their use sites exactly as in the source. -/

/-- A langchain-style tool: `name`, `description`, and the callable. -/
structure PyTool where
  name : String
  description : String
  run : String → Except String String

/-- `AgentCard` (protocols.py): a responder's static capability manifest. -/
structure AgentCard where
  name : String
  description : String
  input_schema : List (String × PyVal)
  output_schema : List (String × PyVal)
  version : String := "1.0.0"
  capabilities : List String := []

/-- `Envelope` (protocols.py). `trace_id`/`idempotency_key` default to
fresh uuid4 values in the source; they are caller-supplied here. -/
structure Envelope where
  trace_id : String
  idempotency_key : String
  sender_id : String := "orchestrator"
  receiver_id : String
  payload : List (String × String)

/-- `AgentResponse` (protocols.py). Its fields are exactly `envelope_id`,
`output`, `error`, `usage` (and a timestamp, omitted here as wall-clock):
there is NO reasoning-trace field. -/
structure AgentResponse where
  envelope_id : String
  output : Option String
  error : Option String := none
  usage : List (String × Nat) := []
deriving DecidableEq, Repr

/-- `AgentResponse(envelope_id=…, output=…, thinking=…)` as `process`
constructs it: pydantic models silently IGNORE unknown keyword arguments,
so the `thinking` list is dropped on the floor. -/
def mkAgentResponseExtra (envelope_id : String) (output : Option String)
    (_thinking : List String) : AgentResponse :=
  { envelope_id := envelope_id, output := output, error := none, usage := [] }

/-- `A2ABaseAgent` (base.py): the A2A responder base class. -/
structure A2ABaseAgent where
  name : String
  tools : List PyTool
  system_prompt : String
  card : AgentCard
  max_iterations : Nat := 3

/-- `A2ABaseAgent.get_card`. -/
def A2ABaseAgent.get_card (a : A2ABaseAgent) : AgentCard := a.card

/-! ### Python string and regex helpers -/

/-- Python `\s` / `str.strip()` whitespace. -/
def pyIsSpace (c : Char) : Bool :=
  c = ' ' || c = '\t' || c = '\n' || c = '\r' || c = '\x0b' || c = '\x0c'

/-- Python `str.strip()` on a character list. -/
def pyStripList (l : Text) : Text :=
  ((l.dropWhile pyIsSpace).reverse.dropWhile pyIsSpace).reverse

/-- Python `str.strip()`. -/
def pyStrip (s : String) : String := String.mk (pyStripList s.data)

/-- Python `str.strip("[]")`: remove leading/trailing characters drawn from
the set. -/
def stripChars (cs : List Char) (l : Text) : Text :=
  ((l.dropWhile (· ∈ cs)).reverse.dropWhile (· ∈ cs)).reverse

/-- Python `s[:n]`. -/
def pyTake (n : Nat) (s : String) : String := String.mk (s.data.take n)

/-- Index of the first occurrence of `pat` in `s` (Python `str.find` /
regex literal search). -/
def findSub (pat : Text) : Text → Option Nat
  | [] => if pat.isPrefixOf ([] : Text) then some 0 else none
  | c :: cs =>
    if pat.isPrefixOf (c :: cs) then some 0
    else (findSub pat cs).map (· + 1)

/-- Python `pat in s`. -/
def containsSub (pat s : Text) : Bool := (findSub pat s).isSome

/-- `re.search(marker + r"\s*(.+)", s)` without DOTALL: find the first
marker occurrence at which the pattern matches; greedy `\s*`, then a
non-empty capture running to the end of the line. When everything after
the marker is whitespace containing some non-newline character, the regex
backtracks into that whitespace and the capture strips to the empty
string (returned here already stripped as `[]`); when only newlines (or
nothing) follow, no later marker occurrence can exist inside them and the
search fails. -/
def reSearchLine (marker : Text) : Text → Option Text
  | [] => none
  | c :: cs =>
    if marker.isPrefixOf (c :: cs) then
      let rest := (c :: cs).drop marker.length
      let k := (rest.takeWhile pyIsSpace).length
      if k < rest.length then some ((rest.drop k).takeWhile (fun ch => ch ≠ '\n'))
      else if rest.any (fun ch => ch ≠ '\n') then some []
      else none
    else reSearchLine marker cs

/-- `re.search(marker + r"\s*(.+)", s, re.DOTALL)`: the capture runs to the
end of the string; after `.strip()` it equals the stripped remainder, so
the raw remainder is returned and stripped at the use site. An empty
remainder fails (and no later occurrence can follow it). -/
def reSearchDotall (marker : Text) : Text → Option Text
  | [] => none
  | c :: cs =>
    if marker.isPrefixOf (c :: cs) then
      let rest := (c :: cs).drop marker.length
      if rest.isEmpty then none else some rest
    else reSearchDotall marker cs

/-- Python `s.split(pat)[0]`. -/
def takeUntilSub (pat s : Text) : Text :=
  match findSub pat s with
  | some j => s.take j
  | none => s

/-- `re.search(r"Thought:\s*(.+?)(?=Action:|Final Answer:|$)", s, re.DOTALL)`,
followed by `.strip()`: the lazy capture runs from the first non-whitespace
character after `Thought:` to the earliest later `Action:` /
`Final Answer:` occurrence or the end (the `$`-before-final-newline nuance
is absorbed by the strip). -/
def thoughtCapture (s : Text) : Option Text :=
  match findSub "Thought:".data s with
  | none => none
  | some i =>
    let rest := s.drop (i + 8)
    let k := (rest.takeWhile pyIsSpace).length
    if k < rest.length then
      let body := rest.drop k
      let stopA := ((findSub "Action:".data (body.drop 1)).map (· + 1)).getD body.length
      let stopF := ((findSub "Final Answer:".data (body.drop 1)).map (· + 1)).getD body.length
      some (pyStripList (body.take (min stopA stopF)))
    else if rest.any (fun ch => ch ≠ '\n') then some []
    else none

/-- The `elif "Thought:" in response` fallback:
`response.split("Thought:")[1].split("Action:")[0].strip()`. -/
def fallbackThought (s : Text) : Text :=
  let afterFirst := s.drop (((findSub "Thought:".data s).getD 0) + 8)
  pyStripList (takeUntilSub "Action:".data (takeUntilSub "Thought:".data afterFirst))

/-! ### Prompt template and the bounded reasoning loop -/

/-- `"\n".join(f"{t.name}: {t.description}" for t in tools)`. -/
def toolDescLines (tools : List PyTool) : String :=
  String.intercalate "\n" (tools.map (fun t => t.name ++ ": " ++ t.description))

/-- `", ".join(f"[{t.name}]" for t in tools)`. -/
def toolNameList (tools : List PyTool) : String :=
  String.intercalate ", " (tools.map (fun t => "[" ++ t.name ++ "]"))

/-- The prompt template built in `A2ABaseAgent.__init__` (the f-string with
`{input}` and `{agent_scratchpad}` left as `.format` slots). -/
def template (a : A2ABaseAgent) : String :=
  "You are the " ++ a.name ++ ".\n" ++ a.system_prompt ++
  "\n\nIMPORTANT: You may receive a 'Conversation History' in your input. USE IT to maintain context (e.g., patient age, previous diagnosis). \nDo not ask for information that has already been provided in the history.\n\nTOOLS:\n------\nYou have access to the following tools:\n\n"
  ++ toolDescLines a.tools ++
  "\n\nTo use a tool, please use the following format:\n\n```\nThought: Do I need to use a tool? Yes\nAction: the action to take, should be one of "
  ++ toolNameList a.tools ++
  "\nAction Input: the input to the action\nObservation: the result of the action\n```\n\nWhen you have a response to say to the Human, or if you do not need to use a tool, you MUST use the format:\n\n```\nThought: Do I need to use a tool? No\nFinal Answer: [your response here]\n```\n\nBegin!\n\nNew input: {input}\n{agent_scratchpad}\n"

/-- `self.template.format(input=…, agent_scratchpad=…)` (sequential
substitution of the two slots; the slots occur once each). -/
def renderPrompt (a : A2ABaseAgent) (input scratchpad : String) : String :=
  String.mk (replaceAll "{agent_scratchpad}".data scratchpad.data
    (replaceAll "{input}".data input.data (template a).data))

/-- The iteration-limit message. -/
def maxIterMsg : String := "Agent reached max iterations without final answer."

/-- Outcome of one iteration body of `_execute_rect_loop`: either the loop
returns (`final`), or it appends to the scratchpad and continues. -/
inductive StepOut where
  | final (output : String) (thinking_steps : List String)
  | continue_ (scratchpad_add : String) (thinking_steps : List String)
deriving DecidableEq

/-- One iteration body of `_execute_rect_loop`: parse the model response
(Thought capture with its `split` fallback, Final Answer, Action/Action
Input), invoke the named tool (exceptions and unknown tools become
error-string observations), or treat unstructured text as an implicit
final answer, or record a could-not-parse observation. -/
def rectStep (a : A2ABaseAgent) (response : String)
    (thinking0 : List String) : StepOut :=
  let action_match := reSearchLine "Action:".data response.data
  let input_match := reSearchLine "Action Input:".data response.data
  let final_answer_match := reSearchDotall "Final Answer:".data response.data
  let thinking_steps :=
    match thoughtCapture response.data with
    | some tc => thinking0 ++ [String.mk tc]
    | none =>
      if containsSub "Thought:".data response.data then
        thinking0 ++ [String.mk (fallbackThought response.data)]
      else thinking0
  match final_answer_match with
  | some fa => .final (pyStrip (String.mk fa)) thinking_steps
  | none =>
    match action_match, input_match with
    | some am, some im =>
      let action := String.mk (stripChars ['[', ']'] (pyStripList am))
      let action_input := String.mk (pyStripList im)
      match a.tools.find? (fun t => t.name == action) with
      | some tool =>
        let thinking_steps := thinking_steps ++
          ["**Action**: Calling tool `" ++ action ++ "` with input `"
            ++ action_input ++ "`"]
        let obs : String × String :=
          match tool.run action_input with
          | .ok observation =>
            (observation, "Tool Output: " ++ pyTake 200 observation ++ "...")
          | .error e => ("Error: " ++ e, "Tool Error: " ++ e)
        let thinking_steps := thinking_steps ++ ["**Observation**: " ++ obs.2]
        .continue_ (response ++ "\nObservation: " ++ obs.1 ++ "\n") thinking_steps
      | none =>
        let observation := "Error: Tool '" ++ action ++ "' not found."
        let thinking_steps := thinking_steps ++ ["**Observation**: " ++ observation]
        .continue_ (response ++ "\nObservation: " ++ observation ++ "\n") thinking_steps
    | _, _ =>
      if containsSub "Thought:".data response.data = false ∧
          containsSub "Action:".data response.data = false then
        .final (pyStrip response) thinking_steps
      else
        .continue_ (response ++ "\nObservation: Could not parse action. Review format.\n")
          thinking_steps

/-- The bounded loop of `_execute_rect_loop` (`for i in range(max_iterations)`),
instrumented with the list of prompts sent to the model (`calls`): one model
invocation per iteration. -/
def rectLoop (a : A2ABaseAgent) (llm : String → String) (user_input : String) :
    Nat → String → List String → List String → String × List String × List String
  | 0, _, thinking_steps, calls => (maxIterMsg, thinking_steps, calls)
  | fuel + 1, scratchpad, thinking_steps, calls =>
    let prompt := renderPrompt a user_input scratchpad
    let response := llm prompt
    match rectStep a response thinking_steps with
    | .final out thinking_steps => (out, thinking_steps, calls ++ [prompt])
    | .continue_ scratchpad_add thinking_steps =>
      rectLoop a llm user_input fuel (scratchpad ++ scratchpad_add)
        thinking_steps (calls ++ [prompt])

/-- `A2ABaseAgent._execute_rect_loop`: output, reasoning trace, and the
prompts sent. -/
def A2ABaseAgent.execute_rect_loop (a : A2ABaseAgent) (llm : String → String)
    (user_input : String) : String × List String × List String :=
  rectLoop a llm user_input a.max_iterations "" [] []

/-- `A2ABaseAgent.process`: validate `payload["input"]`, run the loop, wrap
the result (the `thinking` keyword is dropped by the response model; the
`except` branch is unreachable in this total embedding). -/
def A2ABaseAgent.process (a : A2ABaseAgent) (llm : String → String)
    (env : Envelope) : AgentResponse :=
  let user_input := (env.payload.lookup "input").getD ""
  if user_input = "" then
    { envelope_id := env.idempotency_key, output := none,
      error := some "Validation Error: 'input' field missing in payload." }
  else
    let r := a.execute_rect_loop llm user_input
    mkAgentResponseExtra env.idempotency_key (some r.1) r.2.1

/-! ## The A2A diagnosis responder (`specialized_agents/diagnosis_agent.py`) -/

namespace AgentModules

/-- The diagnosis agent's Capability Card (A2A §1.1). -/
def diagnosis_card : AgentCard :=
  { name := "diagnosis"
    description := "Specialized diagnostic reasoning agent that analyzes clinical symptoms, patient history, and knowledge core context to suggest differential diagnoses. It uses a two-step process: (1) Structural symptom analysis & context integration, and (2) Evidence-based web searching on trusted medical sites (Mayo Clinic, UpToDate, Merck Manuals, etc.) to validate potential conditions."
    input_schema :=
      [("type", .str "object"),
       ("properties", .dict
         [("input", .dict
           [("type", .str "string"),
            ("description", .str "Symptoms, patient presentation, or clinical query")])]),
       ("required", .list [.str "input"])]
    output_schema :=
      [("type", .str "object"),
       ("properties", .dict
         [("output", .dict
           [("type", .str "string"),
            ("description", .str "Differential diagnosis with supporting evidence, cited sources, and clinical reasoning.")])])]
    version := "2.0.0"
    capabilities := ["symptom-analysis", "differential-diagnosis",
      "clinical-reasoning", "medical-guidelines", "diagnostic-criteria"] }

/-- The diagnosis responder: an `A2ABaseAgent` over the two diagnosis tools
(external callables, passed in), with `max_iterations = 5` to allow the
analysis → search → synthesis loop. The long system prompt is abridged to
its first sentence: no claim observes prompt text. -/
def diagnosis_agent (analyze_symptoms crawl_diagnosis_articles : String → Except String String) :
    A2ABaseAgent :=
  { name := "diagnosis"
    tools :=
      [{ name := "analyze_symptoms"
         description := "Analyze symptoms and integrate Knowledge Core context."
         run := analyze_symptoms },
       { name := "crawl_diagnosis_articles"
         description := "Search trusted medical sites for diagnostic evidence."
         run := crawl_diagnosis_articles }]
    system_prompt := "You are the Diagnosis & Clinical Reasoning Agent for MediCortex."
    card := diagnosis_card
    max_iterations := 5 }

end AgentModules

/-! ## The process-wide responder registry (`specialized_agents/agents.py`)

`agents.py` defines its own `SimpleReactAgent` class — a ReAct loop with
`invoke(dict) -> dict` as its ONLY public operation (the loop body is the
same parse-act-observe logic as `A2ABaseAgent._execute_rect_loop`, without
trace collection) — instantiates five of them, and builds `AGENT_REGISTRY`
from those instances. The `A2ABaseAgent` responders defined in
`pubmed_agent.py`, `diagnosis_agent.py`, `report_agent.py`,
`patient_agent.py` and `drug_agent.py` are never registered.

Python object interfaces are duck-typed: `hasAttr` lists the attribute
names an instance of each class answers to (fields set in `__init__` plus
methods of the class body). -/

namespace Agents

/-- `SimpleReactAgent` (agents.py): lightweight ReAct agent for models
without native tool support. Its tool callables are external langchain
objects; only their names are observable to the claims. -/
structure SimpleReactAgent where
  name : String
  toolNames : List String
  system_prompt : String
  max_iterations : Nat := 3
deriving DecidableEq, Repr

/-- The attributes a `SimpleReactAgent` instance responds to: the fields
bound in `__init__` and the class's one method, `invoke`. There is no
`process` and no `get_card`. -/
def SimpleReactAgent.hasAttr (_ : SimpleReactAgent) (attr : String) : Bool :=
  ["name", "llm", "tools", "system_prompt", "max_iterations",
   "template", "invoke"].contains attr

/-- 1. PubMed Retriever Agent. -/
def pubmed_agent : SimpleReactAgent :=
  { name := "PubMed Retriever Agent"
    toolNames := ["search_pubmed"]
    system_prompt := "Your goal is to find relevant medical literature. Query PubMed for the user's specific medical topic." }

/-- 2. Diagnosis Agent. -/
def diagnosis_agent : SimpleReactAgent :=
  { name := "Diagnosis Agent"
    toolNames := ["consult_medical_guidelines"]
    system_prompt := "Your goal is to suggest potential diagnoses based on symptoms. ALWAYS reference medical guidelines." }

/-- 3. Report Analyzer Agent. -/
def report_agent : SimpleReactAgent :=
  { name := "Report Analyzer Agent"
    toolNames := ["parse_lab_values"]
    system_prompt := "Your goal is to extract and interpret structured data from unstructured medical reports (PDFs) or medical images (X-Rays, MRIs). For images, analyze the metadata and visual features." }

/-- 4. Patient Retriever Agent. -/
def patient_agent : SimpleReactAgent :=
  { name := "Patient Retriever Agent"
    toolNames := ["search_patient_records"]
    system_prompt := "Your goal is to retrieve patient history and demographics securely." }

/-- 5. Drug Interaction Agent. -/
def drug_agent : SimpleReactAgent :=
  { name := "Drug Interaction Agent"
    toolNames := ["check_drug_interactions"]
    system_prompt := "Your goal is to identify dangerous drug interactions and contraindications. Check the 'Conversation History' for patient conditions (`Prostate Cancer`, `Diabetes`) or previously mentioned drugs. If a specific medication list is provided, check for interactions between them or with the patient's condition. If NO medications are listed in the user query, look for a condition in the history and provide 'Standard Contraindications' for that condition. Do NOT ask for clarification unless absolutely necessary." }

/-- `AGENT_REGISTRY` (agents.py, lines 169–175): the fixed process-wide
mapping from responder key to the registered object. -/
def AGENT_REGISTRY : List (String × SimpleReactAgent) :=
  [("pubmed", pubmed_agent),
   ("diagnosis", diagnosis_agent),
   ("report", report_agent),
   ("patient", patient_agent),
   ("drug", drug_agent)]

end Agents

/-- The attributes an `A2ABaseAgent` instance responds to (for contrast
with the registered `SimpleReactAgent`s): `__init__` fields plus the
methods `get_card`, `process`, `invoke`, `_execute_rect_loop`. -/
def A2ABaseAgent.hasAttr (_ : A2ABaseAgent) (attr : String) : Bool :=
  ["name", "llm", "tools", "system_prompt", "card", "max_iterations",
   "template", "get_card", "process", "invoke", "_execute_rect_loop"].contains attr

/-- C2. The claim fails on the code: `AGENT_REGISTRY` maps the five
responder keys to `SimpleReactAgent` instances, which implement neither
`process(Envelope) -> AgentResponse` nor `get_card` — every registered
object lacks both attributes, while the (unregistered) `A2ABaseAgent`
responders such as the `diagnosis_agent` module's instance do implement
both and publish their Capability Card via `get_card`. -/
theorem registry_lacks_a2a_interface :
    Agents.AGENT_REGISTRY.map (fun kv => kv.1)
      = ["pubmed", "diagnosis", "report", "patient", "drug"] ∧
    Agents.AGENT_REGISTRY.all
      (fun kv => !(kv.2.hasAttr "process") && !(kv.2.hasAttr "get_card")) = true ∧
    (∀ analyze crawl,
      (AgentModules.diagnosis_agent analyze crawl).hasAttr "process" = true ∧
      (AgentModules.diagnosis_agent analyze crawl).hasAttr "get_card" = true ∧
      (AgentModules.diagnosis_agent analyze crawl).get_card
        = AgentModules.diagnosis_card) := by
  refine ⟨by decide, by decide, fun analyze crawl => ⟨rfl, rfl, rfl⟩⟩

/-! ## Bounds and termination of the reasoning loop (Claims C9, C4) -/

/-- A model response on which the loop keeps going: no Final Answer, and
not the unstructured implicit-answer shape. -/
def NonTerminal (response : String) : Prop :=
  reSearchDotall "Final Answer:".data response.data = none ∧
  (containsSub "Thought:".data response.data = true ∨
    containsSub "Action:".data response.data = true)

theorem rectStep_of_nonTerminal (a : A2ABaseAgent) (response : String)
    (thinking0 : List String) (h : NonTerminal response) :
    ∃ add th, rectStep a response thinking0 = .continue_ add th := by
  obtain ⟨hfa, hct⟩ := h
  have hcond : ¬(containsSub "Thought:".data response.data = false ∧
      containsSub "Action:".data response.data = false) := by
    rintro ⟨h1, h2⟩
    rcases hct with hc | hc
    · rw [hc] at h1; exact absurd h1 (by simp)
    · rw [hc] at h2; exact absurd h2 (by simp)
  cases ham : reSearchLine "Action:".data response.data with
  | some am =>
    cases him : reSearchLine "Action Input:".data response.data with
    | some im =>
      simp only [rectStep, hfa, ham, him]
      cases htool : List.find? (fun t =>
          t.name == String.mk (stripChars ['[', ']'] (pyStripList am)))
          a.tools with
      | some tool => exact ⟨_, _, rfl⟩
      | none => exact ⟨_, _, rfl⟩
    | none =>
      simp only [rectStep, hfa, ham, him]
      split
      · rename_i hc
        exact absurd hc hcond
      · exact ⟨_, _, rfl⟩
  | none =>
    cases him : reSearchLine "Action Input:".data response.data <;>
      · simp only [rectStep, hfa, ham, him]
        split
        · rename_i hc
          exact absurd hc hcond
        · exact ⟨_, _, rfl⟩

theorem rectLoop_calls_le (a : A2ABaseAgent) (llm : String → String)
    (input : String) : ∀ (fuel : Nat) (scratch : String)
      (thinking calls : List String),
    (rectLoop a llm input fuel scratch thinking calls).2.2.length
      ≤ calls.length + fuel := by
  intro fuel
  induction fuel with
  | zero => intro scratch thinking calls; simp [rectLoop]
  | succ f ih =>
    intro scratch thinking calls
    rw [rectLoop]
    cases hstep : rectStep a (llm (renderPrompt a input scratch)) thinking with
    | final out th =>
      show ((out, th, calls ++ [renderPrompt a input scratch])).2.2.length
        ≤ calls.length + (f + 1)
      simp only [List.length_append, List.length_cons, List.length_nil]
      omega
    | continue_ add th =>
      show (rectLoop a llm input f (scratch ++ add) th
        (calls ++ [renderPrompt a input scratch])).2.2.length
        ≤ calls.length + (f + 1)
      have := ih (scratch ++ add) th (calls ++ [renderPrompt a input scratch])
      simp only [List.length_append, List.length_cons, List.length_nil] at this
      omega

theorem rectLoop_exhausts (a : A2ABaseAgent) (llm : String → String)
    (input : String) (hllm : ∀ s, NonTerminal (llm s)) :
    ∀ (fuel : Nat) (scratch : String) (thinking calls : List String),
      (rectLoop a llm input fuel scratch thinking calls).1 = maxIterMsg ∧
      (rectLoop a llm input fuel scratch thinking calls).2.2.length
        = calls.length + fuel := by
  intro fuel
  induction fuel with
  | zero => intro scratch thinking calls; exact ⟨rfl, by simp [rectLoop]⟩
  | succ f ih =>
    intro scratch thinking calls
    rw [rectLoop]
    obtain ⟨add, th, hstep⟩ := rectStep_of_nonTerminal a
      (llm (renderPrompt a input scratch)) thinking (hllm _)
    rw [hstep]
    obtain ⟨h1, h2⟩ := ih (scratch ++ add) th
      (calls ++ [renderPrompt a input scratch])
    refine ⟨h1, ?_⟩
    rw [h2]
    simp only [List.length_append, List.length_cons, List.length_nil]
    omega

/-- C9. A responder's reasoning loop performs at most `max_iterations` model
invocations (3 by default, 5 for the diagnosis responder); when the budget
is exhausted without a final answer it returns the fixed "reached iteration
limit" message together with the collected reasoning trace, as a soft
failure with no error set. -/
theorem bounded_reasoning_loop (a : A2ABaseAgent) (llm : String → String)
    (input : String) (env : Envelope) :
    (a.execute_rect_loop llm input).2.2.length ≤ a.max_iterations ∧
    (∀ name tools sp card,
      ({ name := name, tools := tools, system_prompt := sp, card := card }
        : A2ABaseAgent).max_iterations = 3) ∧
    (∀ analyze crawl,
      (AgentModules.diagnosis_agent analyze crawl).max_iterations = 5) ∧
    ((∀ s, NonTerminal (llm s)) →
      (a.execute_rect_loop llm input).1 = maxIterMsg ∧
      (a.execute_rect_loop llm input).2.2.length = a.max_iterations ∧
      ((env.payload.lookup "input").getD "" ≠ "" →
        a.process llm env
          = { envelope_id := env.idempotency_key, output := some maxIterMsg,
              error := none, usage := [] })) := by
  refine ⟨?_, fun _ _ _ _ => rfl, fun _ _ => rfl, ?_⟩
  · have := rectLoop_calls_le a llm input a.max_iterations "" [] []
    simpa [A2ABaseAgent.execute_rect_loop] using this
  · intro hllm
    obtain ⟨h1, h2⟩ := rectLoop_exhausts a llm input hllm a.max_iterations "" [] []
    refine ⟨h1, by simpa [A2ABaseAgent.execute_rect_loop] using h2, ?_⟩
    intro hne
    have hout : (a.execute_rect_loop llm
        ((env.payload.lookup "input").getD "")).1 = maxIterMsg := by
      have := (rectLoop_exhausts a llm ((env.payload.lookup "input").getD "")
        hllm a.max_iterations "" [] []).1
      simpa [A2ABaseAgent.execute_rect_loop] using this
    unfold A2ABaseAgent.process
    rw [if_neg hne]
    show mkAgentResponseExtra env.idempotency_key
      (some (a.execute_rect_loop llm ((env.payload.lookup "input").getD "")).1)
      (a.execute_rect_loop llm ((env.payload.lookup "input").getD "")).2.1 = _
    rw [hout]
    rfl

/-- A no-tool responder used as a concrete instance below. -/
def wAgent : A2ABaseAgent :=
  { name := "w", tools := [], system_prompt := "p",
    card := { name := "w", description := "d",
              input_schema := [], output_schema := [] } }

/-- A well-formed envelope used as a concrete instance below. -/
def wEnv : Envelope :=
  { trace_id := "t", idempotency_key := "k1", receiver_id := "w",
    payload := [("input", "q")] }

/-- Witness for C9: a responder with no tools, a model that always answers
with an unterminated Thought, and a well-formed envelope. -/
theorem bounded_reasoning_loop_witness :
    A2ABaseAgent.process wAgent (fun _ => "Thought: still thinking") wEnv
      = { envelope_id := "k1", output := some maxIterMsg,
          error := none, usage := [] } :=
  ((bounded_reasoning_loop wAgent (fun _ => "Thought: still thinking")
      "q" wEnv).2.2.2
    (fun _ => by constructor <;> decide)).2.2 (by decide)

/-! ## The shape of `process`'s response (Claim C4) -/

theorem process_eq (a : A2ABaseAgent) (llm : String → String) (env : Envelope) :
    a.process llm env =
      if (env.payload.lookup "input").getD "" = "" then
        { envelope_id := env.idempotency_key, output := none,
          error := some "Validation Error: 'input' field missing in payload." }
      else
        mkAgentResponseExtra env.idempotency_key
          (some (a.execute_rect_loop llm ((env.payload.lookup "input").getD "")).1)
          (a.execute_rect_loop llm ((env.payload.lookup "input").getD "")).2.1 :=
  rfl

theorem rectLoop_trace_fa (a : A2ABaseAgent) (input scratch : String)
    (thinking calls : List String) (f : Nat) :
    (rectLoop a (fun _ => "Final Answer: ok") input (f + 1) scratch
      thinking calls).2.1 = thinking := rfl

theorem rectLoop_trace_thought (a : A2ABaseAgent) (input scratch : String)
    (thinking calls : List String) (f : Nat) :
    (rectLoop a (fun _ => "Thought: consider\nFinal Answer: ok") input (f + 1)
      scratch thinking calls).2.1 = thinking ++ ["consider"] := rfl

theorem rectLoop_out_fa (a : A2ABaseAgent) (input scratch : String)
    (thinking calls : List String) (f : Nat) :
    (rectLoop a (fun _ => "Final Answer: ok") input f scratch
      thinking calls).1 = if f = 0 then maxIterMsg else "ok" := by
  cases f with
  | zero => rfl
  | succ n => rfl

theorem rectLoop_out_thought (a : A2ABaseAgent) (input scratch : String)
    (thinking calls : List String) (f : Nat) :
    (rectLoop a (fun _ => "Thought: consider\nFinal Answer: ok") input f scratch
      thinking calls).1 = if f = 0 then maxIterMsg else "ok" := by
  cases f with
  | zero => rfl
  | succ n => rfl

/-- C4. `process` answers with the originating envelope's idempotency key
and never sets both output and error; but the "collected reasoning-trace
list" is NOT carried: `AgentResponse` has no such field, the `thinking=`
keyword is silently dropped, so two runs whose collected traces differ
(`[]` versus `["consider"]`) produce identical responses. -/
theorem agent_response_drops_trace :
    (∀ (a : A2ABaseAgent) (llm : String → String) (env : Envelope),
      (a.process llm env).envelope_id = env.idempotency_key) ∧
    (∀ (a : A2ABaseAgent) (llm : String → String) (env : Envelope),
      ¬((a.process llm env).output.isSome = true ∧
        (a.process llm env).error.isSome = true)) ∧
    (∀ (e : String) (o : Option String) (t1 t2 : List String),
      mkAgentResponseExtra e o t1 = mkAgentResponseExtra e o t2) ∧
    (∀ (a : A2ABaseAgent) (input : String), 1 ≤ a.max_iterations →
      (a.execute_rect_loop (fun _ => "Final Answer: ok") input).2.1 = [] ∧
      (a.execute_rect_loop
        (fun _ => "Thought: consider\nFinal Answer: ok") input).2.1
        = ["consider"]) ∧
    (∀ (a : A2ABaseAgent) (env : Envelope),
      a.process (fun _ => "Final Answer: ok") env
        = a.process (fun _ => "Thought: consider\nFinal Answer: ok") env) := by
  refine ⟨?_, ?_, fun e o t1 t2 => rfl, ?_, ?_⟩
  · intro a llm env
    rw [process_eq]
    split <;> rfl
  · intro a llm env
    rw [process_eq]
    split
    · rintro ⟨h1, h2⟩
      simp at h1
    · rintro ⟨h1, h2⟩
      simp [mkAgentResponseExtra] at h2
  · intro a input h1
    unfold A2ABaseAgent.execute_rect_loop
    cases hmi : a.max_iterations with
    | zero => omega
    | succ n =>
      exact ⟨rectLoop_trace_fa a input "" [] [] n,
        rectLoop_trace_thought a input "" [] [] n⟩
  · intro a env
    by_cases hc : (env.payload.lookup "input").getD "" = ""
    · rw [process_eq, process_eq, if_pos hc, if_pos hc]
    · rw [process_eq, process_eq, if_neg hc, if_neg hc]
      unfold A2ABaseAgent.execute_rect_loop
      rw [rectLoop_out_fa, rectLoop_out_thought]
      rfl

/-- Witness for C4 at a concrete responder: with one final-answer turn the
collected traces differ but are both dropped. -/
theorem agent_response_drops_trace_witness :
    (wAgent.execute_rect_loop (fun _ => "Final Answer: ok") "hi").2.1 = [] ∧
    (wAgent.execute_rect_loop
      (fun _ => "Thought: consider\nFinal Answer: ok") "hi").2.1
      = ["consider"] :=
  agent_response_drops_trace.2.2.2.1 wAgent "hi" (by decide)

end MediCortex
